import Mathlib

/-!
# Verification of the chrome-storage operation-orchestration core

A shallow embedding of the storage orchestrator (`src/core/advanced-storage.ts`),
the multi-strategy cache (`src/cache/storage-cache.ts`), and the synchronization
engine (`src/sync/sync-manager.ts`), together with theorems settling the
testable properties of the specification.

Modelling conventions:
* JS `Map` objects are modelled as insertion-ordered association lists.
* JSON-serialisable values are modelled by the inductive `JVal`.
* The opaque codec primitives (gzip/base64, AES) are external collaborators;
  per the spec they satisfy `decompress (compress x) = x` and
  `decrypt (encrypt x) = x`, so the byte-level payload of a compressed or
  encrypted wrapper is modelled as the decoded value it round-trips to.
* Machine integers: all sizes, timestamps, and versions are far below 2^53,
  so JS numbers behave as exact naturals and are modelled with `Nat`.
-/

set_option autoImplicit false

namespace ChromeStorage

/-! ## Association-list maps (JS `Map` semantics: insertion order preserved,
    `set` overwrites in place, `delete` removes the entry) -/

/-- Look up the value stored under key `k`. -/
def lookupProp {α : Type} (l : List (String × α)) (k : String) : Option α :=
  match l with
  | [] => none
  | (k', v) :: rest => if k' = k then some v else lookupProp rest k

/-- `Map.set` semantics: overwrite the entry in place if the key is present,
    otherwise append at the end. -/
def setProp {α : Type} (l : List (String × α)) (k : String) (v : α) :
    List (String × α) :=
  match l with
  | [] => [(k, v)]
  | (k', v') :: rest =>
    if k' = k then (k, v) :: rest else (k', v') :: setProp rest k v

/-- `Map.delete` semantics: remove the entry with key `k`.  A JS `Map` never
    holds two entries with the same key, so removing every occurrence agrees
    with `Map.delete` on every state a `Map` can actually be in. -/
def eraseProp {α : Type} (l : List (String × α)) (k : String) :
    List (String × α) :=
  l.filter (fun p => p.1 ≠ k)

@[simp] theorem lookupProp_setProp_self {α : Type} (l : List (String × α))
    (k : String) (v : α) : lookupProp (setProp l k v) k = some v := by
  induction l with
  | nil => simp [setProp, lookupProp]
  | cons hd tl ih =>
    obtain ⟨k', v'⟩ := hd
    by_cases h : k' = k <;> simp [setProp, lookupProp, h, ih]

theorem lookupProp_setProp_ne {α : Type} (l : List (String × α))
    (k k' : String) (v : α) (h : k ≠ k') :
    lookupProp (setProp l k v) k' = lookupProp l k' := by
  induction l with
  | nil => simp [setProp, lookupProp, h]
  | cons hd tl ih =>
    obtain ⟨k0, v0⟩ := hd
    by_cases h0 : k0 = k
    · subst h0; simp [setProp, lookupProp, h]
    · simp [setProp, lookupProp, h0, ih]

@[simp] theorem lookupProp_eraseProp_self {α : Type} (l : List (String × α))
    (k : String) : lookupProp (eraseProp l k) k = none := by
  induction l with
  | nil => simp [eraseProp, lookupProp]
  | cons hd tl ih =>
    obtain ⟨k', v'⟩ := hd
    by_cases h : k' = k
    · subst h
      simpa [eraseProp, List.filter] using ih
    · simpa [eraseProp, List.filter, h, lookupProp] using ih

theorem lookupProp_eraseProp_ne {α : Type} (l : List (String × α))
    (k k' : String) (h : k' ≠ k) :
    lookupProp (eraseProp l k) k' = lookupProp l k' := by
  induction l with
  | nil => simp [eraseProp, lookupProp]
  | cons hd tl ih =>
    obtain ⟨k0, v0⟩ := hd
    by_cases h0 : k0 = k
    · subst h0
      have hne : ¬ (k0 = k') := fun he => h he.symm
      simpa [eraseProp, List.filter, lookupProp, hne] using ih
    · by_cases h1 : k0 = k'
      · subst h1
        simp [eraseProp, List.filter, h, lookupProp]
      · simpa [eraseProp, List.filter, h0, lookupProp, h1] using ih

/-- Keys of an association list. -/
def keysOf {α : Type} (l : List (String × α)) : List String := l.map Prod.fst

@[simp] theorem keysOf_nil {α : Type} : keysOf ([] : List (String × α)) = [] := rfl

theorem keysOf_setProp {α : Type} (l : List (String × α)) (k : String)
    (v : α) :
    keysOf (setProp l k v) =
      if (lookupProp l k).isSome then keysOf l else keysOf l ++ [k] := by
  induction l with
  | nil => simp [keysOf, setProp, lookupProp]
  | cons hd tl ih =>
    obtain ⟨k0, v0⟩ := hd
    by_cases h0 : k0 = k
    · subst h0
      simp [setProp, keysOf, lookupProp]
    · by_cases hm : (lookupProp tl k).isSome
      · simp [setProp, if_neg h0, keysOf, lookupProp, h0, hm] at *
        exact ih
      · simp [setProp, if_neg h0, keysOf, lookupProp, h0, hm] at *
        exact ih

theorem mem_keysOf_setProp {α : Type} (l : List (String × α)) (k k' : String)
    (v : α) (h : k' ∈ keysOf l) : k' ∈ keysOf (setProp l k v) := by
  rw [keysOf_setProp]
  by_cases hm : (lookupProp l k).isSome <;> simp [hm, h]

/-! ## Strings: `startsWith` as used by the source (`key.startsWith(prefix)`) -/

/-- List-level prefix test, structural so that the kernel evaluates it. -/
def listIsPre {α : Type} [DecidableEq α] : List α → List α → Bool
  | [], _ => true
  | _ :: _, [] => false
  | a :: as, b :: bs => a = b && listIsPre as bs

/-- `s.startsWith(p)` of JS strings. -/
def startsWithStr (s p : String) : Bool := listIsPre p.data s.data

theorem startsWithStr_append (p rest : String) :
    startsWithStr (p ++ rest) p = true := by
  show listIsPre p.data (p.data ++ rest.data) = true
  induction p.data with
  | nil => rfl
  | cons c cs ih => simpa [listIsPre] using ih

/-- `key.split(':')[0]` of the source (`AdvancedStorage.getSchemaKey`): the
    characters before the first colon. -/
def schemaKeyOf (key : String) : String :=
  String.mk (key.data.takeWhile (fun c => c ≠ ':'))

/-! ## JSON-serialisable values

JS values handled by the pipeline are JSON-serialisable (`JSON.stringify` /
`JSON.parse` round-trip them); `JVal` is their standard model.  JS numbers in
this codebase are integral (versions, sizes, timestamps) and far below 2^53,
so numerals are modelled by `Int`. -/

inductive JVal where
  | null : JVal
  | bool (b : Bool) : JVal
  | num (n : Int) : JVal
  | str (s : String) : JVal
  | arr (elems : List JVal) : JVal
  | obj (fields : List (String × JVal)) : JVal

/-- JS `typeof`: note that `typeof null`, `typeof []` and `typeof {}` are all
    the string `"object"`. -/
def jsTypeof : JVal → String
  | .null => "object"
  | .bool _ => "boolean"
  | .num _ => "number"
  | .str _ => "string"
  | .arr _ => "object"
  | .obj _ => "object"

/-- `Array.isArray`. -/
def isArray : JVal → Bool
  | .arr _ => true
  | _ => false

/-- Own-property lookup on an object literal (first binding wins, as a JS
    object cannot carry duplicate keys). -/
def jFieldOf (fields : List (String × JVal)) (k : String) : Option JVal :=
  lookupProp fields k

mutual

/-- `new Blob([JSON.stringify(value)]).size` (`estimateSize` in
    `advanced-storage.ts` and `storage-cache.ts`): the UTF-8 byte length of the
    JSON serialisation.  String escapes are not modelled (the values in play
    contain no characters needing escapes); per the spec (§9, opaque size
    estimation) any monotone, process-consistent estimate is admissible. -/
def jsonSize : JVal → Nat
  | .null => 4
  | .bool true => 4
  | .bool false => 5
  | .num n => (toString n).length
  | .str s => s.utf8ByteSize + 2
  | .arr elems => 2 + jsonSizeArr elems
  | .obj fields => 2 + jsonSizeObj fields

/-- Total serialised size of array elements plus separating commas. -/
def jsonSizeArr : List JVal → Nat
  | [] => 0
  | [x] => jsonSize x
  | x :: rest => jsonSize x + 1 + jsonSizeArr rest

/-- Total serialised size of object fields plus separating commas. -/
def jsonSizeObj : List (String × JVal) → Nat
  | [] => 0
  | [(k, v)] => k.utf8ByteSize + 3 + jsonSize v
  | (k, v) :: rest => k.utf8ByteSize + 3 + jsonSize v + 1 + jsonSizeObj rest

end

/-! ## Codec pipeline (compression-service.ts, encryption-service.ts)

`CompressionService.compress` serialises the value, gzips it above the
service threshold, and returns a `CompressedData` wrapper; `decompress`
inverts it.  `EncryptionService.encrypt` serialises and seals its argument
(which may itself be a `CompressedData` wrapper) and `decrypt` inverts it.
The byte-level primitives are external collaborators with
`decompress ∘ compress = id` and `decrypt ∘ encrypt = id`, so a wrapper is
modelled as carrying the value it round-trips to. -/

/-- A dynamic value as it sits in the backend or cache: either a plain
    JSON value, a `CompressedData` wrapper, or an `EncryptedData` wrapper
    (whose payload may in turn be a `CompressedData` wrapper). -/
inductive ProcValue where
  | plain (v : JVal) : ProcValue
  | comp (algorithm : String) (payload : JVal)
      (originalSize compressedSize : Nat) : ProcValue
  | enc (algorithm : String) (payload : ProcValue) (nonce : Nat) : ProcValue

/-- Serialised size of a stored value.  For the opaque wrappers the exact
    base64 length is external; a definite monotone estimate is used
    (spec §9 sanctions an abstract `estimateSize`). -/
def procSize : ProcValue → Nat
  | .plain v => jsonSize v
  | .comp a payload _ _ => a.utf8ByteSize + jsonSize payload + 64
  | .enc a payload _ => a.utf8ByteSize + procSize payload + 64

/-- `CompressionService`'s own threshold.  `AdvancedStorage` constructs the
    service with `{algorithm, level}` only, so the service-side threshold is
    always the constructor default of 1024 bytes; below it `compress` returns
    an uncompressed wrapper with algorithm `"none"`. -/
def serviceThreshold : Nat := 1024

/-- `CompressionService.compress`. -/
def compressValue (algorithm : String) (v : JVal) : ProcValue :=
  if jsonSize v < serviceThreshold then
    .comp "none" v (jsonSize v) (jsonSize v)
  else
    .comp algorithm v (jsonSize v) (jsonSize v)

/-- `CompressionService.decompress`: succeeds on a `CompressedData` wrapper
    (`"none"` parses the stored serialisation, anything else un-gzips then
    parses), and raises `COMPRESSION_ERROR`/`DECOMPRESSION_ERROR` on any
    other input (no `algorithm` tag). -/
def decompressValue : ProcValue → Option JVal
  | .comp _ payload _ _ => some payload
  | _ => none

/-- `EncryptionService.encrypt` (nonce freshly drawn; modelled by the call
    timestamp, its value is never inspected). -/
def encryptValue (algorithm : String) (p : ProcValue) (nonce : Nat) :
    ProcValue :=
  .enc algorithm p nonce

/-- `EncryptionService.decrypt`: succeeds on an `EncryptedData` wrapper and
    raises `EncryptionError` on anything else. -/
def decryptValue : ProcValue → Option ProcValue
  | .enc _ payload _ => some payload
  | _ => none

/-! ## Envelope and backend (types.ts `StorageItem`, adapter contract §6) -/

/-- `StorageMetadata` (types.ts).  `checksum` and the free-form spread of
    `options.metadata` are not modelled (the claims quantify over option-free
    and two-argument `set` calls). -/
structure StorageMetadata where
  created : Nat
  updated : Nat
  version : Nat
  size : Nat
  compressed : Bool
  encrypted : Bool
  tags : Option (List String)
  ttl : Option Nat
  expiresAt : Option Nat

/-- `StorageItem` (types.ts): the persisted envelope. -/
structure StorageItem where
  id : String
  key : String
  value : ProcValue
  metadata : StorageMetadata

/-- A value as stored by the backend adapter: either an envelope written by
    the orchestrator (possibly relocated to a version-scoped key), or a
    legacy value written directly by some other client. -/
inductive BackendValue where
  | item (it : StorageItem) : BackendValue
  | legacy (v : JVal) : BackendValue

/-- Does a legacy JSON value have the envelope shape?
    (`'id' in value && 'key' in value && 'value' in value && 'metadata' in
    value`; `in` on a non-object or an array with these non-numeric names is
    false, and `value &&` rules out `null`.) -/
def envelopeShaped : JVal → Bool
  | .obj fields =>
    (jFieldOf fields "id").isSome && (jFieldOf fields "key").isSome &&
    (jFieldOf fields "value").isSome && (jFieldOf fields "metadata").isSome
  | _ => false

/-- `AdvancedStorage.isStorageItem`. -/
def isStorageItemB : BackendValue → Bool
  | .item _ => true
  | .legacy v => envelopeShaped v

/-- `currentItem?.value` on a backend record (property access on the dynamic
    value: an envelope yields its payload, a legacy value yields its own
    `value` field if any). -/
def bvEventValue : BackendValue → Option ProcValue
  | .item it => some it.value
  | .legacy v =>
    match v with
    | .obj fields => (jFieldOf fields "value").map .plain
    | _ => none

/-- Backend byte usage as reported by `adapter.size()`.  The concrete
    adapters serialise each record with its key; the exact accounting is
    adapter-specific (external collaborator), modelled by a definite
    monotone estimate. -/
def bvSize : BackendValue → Nat
  | .item it => it.key.utf8ByteSize + procSize it.value + 32
  | .legacy v => jsonSize v

def backendSize (backend : List (String × BackendValue)) : Nat :=
  backend.foldl (fun acc p => acc + p.1.utf8ByteSize + bvSize p.2) 0

/-! ## Cache engine (storage-cache.ts)

The orchestrator configures `StorageCache` with a strategy string; the `lru`
strategy delegates wholesale to the external `lru-cache` package (an external
collaborator, out of scope per spec §1), so the cache is modelled with the
in-repo `lfu` strategy (`QuickLRU` map + `evictLFU`/`evictByMemory`), which
is the strategy the frequency-eviction claims exercise.  `QuickLRU` is used
purely as a bounded map here — `enforceLimit` keeps its population at most
`maxSize` before every insertion, below the point where `QuickLRU`'s own
generational eviction can trigger — so it is modelled as an insertion-ordered
map. -/

structure CacheEntry where
  key : String
  value : ProcValue
  size : Nat
  frequency : Nat
  createdAt : Nat
  accessedAt : Nat
  expiresAt : Option Nat

structure CacheState where
  entries : List (String × CacheEntry)
  /-- `frequencyMap` bookkeeping; mirrored but never consulted by the
      `lfu` eviction (which reads `entry.frequency`). -/
  frequencyMap : List (String × Nat)
  maxSize : Nat
  maxMemory : Nat
  /-- `config.ttl` (normalised: `config.ttl || 3600000`, hence nonzero
      unless explicitly modelling a falsy config). -/
  ttlDefault : Nat
  hits : Nat
  misses : Nat
  evictions : Nat
  writes : Nat
  reads : Nat
  memoryUsage : Nat

/-- `isExpired`: `entry.expiresAt ? Date.now() > entry.expiresAt : false`. -/
def isExpired (now : Nat) (e : CacheEntry) : Bool :=
  match e.expiresAt with
  | some x => decide (now > x)
  | none => false

/-- `StorageCache.get` (lfu branch): a live entry is a hit (frequency and
    access time bumped), everything else a miss. -/
def cacheGet (now : Nat) (k : String) (c : CacheState) :
    Option ProcValue × CacheState :=
  let c := { c with reads := c.reads + 1 }
  match lookupProp c.entries k with
  | some e =>
    if isExpired now e then
      (none, { c with misses := c.misses + 1 })
    else
      let e' := { e with frequency := e.frequency + 1, accessedAt := now }
      (some e.value,
        { c with
            entries := setProp c.entries k e',
            frequencyMap := setProp c.frequencyMap k e'.frequency,
            hits := c.hits + 1 })
  | none => (none, { c with misses := c.misses + 1 })

/-- `StorageCache.delete` (lfu branch). -/
def cacheDelete (k : String) (c : CacheState) : CacheState :=
  match lookupProp c.entries k with
  | some e =>
    { c with
        entries := eraseProp c.entries k,
        memoryUsage := c.memoryUsage - e.size,
        frequencyMap := eraseProp c.frequencyMap k }
  | none => { c with frequencyMap := eraseProp c.frequencyMap k }

/-- The scan of `evictLFU`: the first entry holding the strictly smallest
    frequency (`entry.frequency < minFreq` keeps the earliest minimum). -/
def lfuVictim (entries : List (String × CacheEntry)) : Option String :=
  (entries.foldl
    (fun acc p =>
      match acc with
      | none => some (p.1, p.2.frequency)
      | some (k0, f0) =>
        if p.2.frequency < f0 then some (p.1, p.2.frequency) else some (k0, f0))
    none).map Prod.fst

/-- `StorageCache.evictLFU`. -/
def evictLFU (c : CacheState) : CacheState :=
  match lfuVictim c.entries with
  | some k => cacheDelete k c
  | none => c

/-- Comparator of `evictByMemory` for the lfu strategy: ascending
    frequency-per-byte score (`entry.frequency / entry.size`), expressed by
    cross-multiplication (sizes are positive). -/
def scoreLe (a b : CacheEntry) : Bool :=
  decide (a.frequency * b.size ≤ b.frequency * a.size)

/-- Insert into a list sorted by `le` (insertion sort is stable and agrees
    with the JS comparator sort on the distinct scores arising here). -/
def insSorted {α : Type} (le : α → α → Bool) (x : α) : List α → List α
  | [] => [x]
  | y :: ys => if le x y then x :: y :: ys else y :: insSorted le x ys

def sortByScore {α : Type} (le : α → α → Bool) : List α → List α
  | [] => []
  | x :: xs => insSorted le x (sortByScore le xs)

/-- The eviction loop of `evictByMemory`: walk the score-sorted entries,
    deleting until the required space is freed. -/
def evictLoop (required : Nat) :
    List (String × Nat) → Nat → CacheState → CacheState
  | [], _, c => c
  | (k, sz) :: rest, freed, c =>
    if freed ≥ required then c
    else evictLoop required rest (freed + sz) (cacheDelete k c)

/-- `StorageCache.evictByMemory` (lfu branch). -/
def evictByMemory (required : Nat) (c : CacheState) : CacheState :=
  let scored := sortByScore (fun a b => scoreLe a.2 b.2) c.entries
  evictLoop required (scored.map (fun p => (p.1, p.2.size))) 0 c

/-- `StorageCache.enforceLimit`. -/
def enforceLimit (requiredSize : Nat) (c : CacheState) : CacheState :=
  let c1 := if c.entries.length ≥ c.maxSize then evictLFU c else c
  if c1.memoryUsage + requiredSize > c1.maxMemory then
    evictByMemory requiredSize c1
  else c1

/-- `ttl ? A : B` on an optional JS number: `0` and `undefined` are falsy. -/
def cacheExpiry (now : Nat) (ttl : Option Nat) (ttlDefault : Nat) :
    Option Nat :=
  match ttl with
  | some t =>
    if t ≠ 0 then some (now + t)
    else if ttlDefault ≠ 0 then some (now + ttlDefault) else none
  | none => if ttlDefault ≠ 0 then some (now + ttlDefault) else none

/-- `StorageCache.set` (lfu branch). -/
def cacheSet (now : Nat) (k : String) (v : ProcValue) (ttl : Option Nat)
    (c : CacheState) : CacheState :=
  let c := { c with writes := c.writes + 1 }
  let size := procSize v
  let entry : CacheEntry :=
    { key := k, value := v, size := size, frequency := 1,
      createdAt := now, accessedAt := now,
      expiresAt := cacheExpiry now ttl c.ttlDefault }
  let c1 := enforceLimit size c
  let c2 :=
    { c1 with
        entries := setProp c1.entries k entry,
        memoryUsage := c1.memoryUsage + size }
  { c2 with frequencyMap := setProp c2.frequencyMap k 1 }

/-- `StorageCache.clear` (lfu branch). -/
def cacheClear (c : CacheState) : CacheState :=
  { c with entries := [], frequencyMap := [], memoryUsage := 0 }

/-! ## Orchestrator (advanced-storage.ts) -/

/-- Error taxonomy (types.ts). -/
inductive ErrKind where
  | validationError : ErrKind
  | quotaExceeded (usage quota : Nat) : ErrKind
  | encryptionError : ErrKind
  | storageError (code : String) : ErrKind

inductive ChangeType where
  | set : ChangeType
  | del : ChangeType
  | clear : ChangeType
  deriving DecidableEq

/-- Events emitted on the orchestrator's emitter (types.ts `StorageEvents`).
    `oldValue`/`newValue` carry `currentItem?.value`, i.e. the stored
    (processed) payload. -/
inductive Event where
  | change (key : String) (ty : ChangeType)
      (oldValue newValue : Option ProcValue) (ts : Nat) : Event
  | errorEv (code : String) : Event
  | quotaWarning : Event
  | syncStart : Event
  | syncComplete (success : Bool) : Event
  | conflictEv (key : String) : Event

/-- `SetOptions` (types.ts); the free-form `options.metadata` spread and the
    unused `ifNotExists`/`version` fields are not modelled (the claims
    quantify over calls that do not use them). -/
structure SetOpts where
  ttl : Option Nat := none
  tags : Option (List String) := none
  encrypt : Option Bool := none
  compress : Option Bool := none

/-- `SyncChange` (sync-manager.ts). -/
structure SyncChange where
  key : String
  type : ChangeType
  value : Option JVal
  timestamp : Nat
  source : String

/-- The normalised `StorageConfig` relevant to the orchestration core.
    A service object exists exactly when its feature is enabled
    (`initializeServices`). -/
structure StorageConfig where
  /-- `config.namespace` -/
  nspace : String
  compressionEnabled : Bool
  compressionAlgorithm : String
  /-- `config.compression.threshold` (`threshold || 1024` at use site) -/
  compressionThreshold : Nat
  encryptionEnabled : Bool
  encryptionAlgorithm : String
  cacheEnabled : Bool
  syncEnabled : Bool
  versioningEnabled : Bool
  versioningMaxVersions : Nat
  versioningAutoCleanup : Bool
  quotaEnforce : Bool
  /-- `config.quota.maxSize`, in MB -/
  quotaMaxMB : Nat
  /-- `config.quota.warnAt`, a percentage -/
  quotaWarnAt : Nat

/-- The orchestrator's process state: backend map, cache, registered
    schemas, version counter, the sync manager's pending-change map, and the
    emitted-event log (most recent first).  Schema validation itself is an
    external collaborator (zod, out of scope §1), modelled as a predicate. -/
structure AdvState where
  config : StorageConfig
  backend : List (String × BackendValue)
  cache : CacheState
  schemas : List (String × (JVal → Bool))
  versionCounter : List (String × Nat)
  pendingSync : List (String × SyncChange)
  events : List Event

def pushEvent (e : Event) (s : AdvState) : AdvState :=
  { s with events := e :: s.events }

/-- `getInternalKey`. -/
def internalKey (cfg : StorageConfig) (key : String) : String :=
  cfg.nspace ++ ":" ++ key

/-- Schema lookup plus validation: `this.schemas.has(schemaKey)` followed by
    `validator.validate` (zod parse, modelled by the registered
    predicate). -/
def validationFails (s : AdvState) (key : String) (value : JVal) : Bool :=
  match lookupProp s.schemas (schemaKeyOf key) with
  | some sch => ! sch value
  | none => false

/-- `shouldCompress`. -/
def shouldCompress (cfg : StorageConfig) (value : JVal) (opts : SetOpts) :
    Bool :=
  if !cfg.compressionEnabled then false
  else if opts.compress = some false then false
  else if opts.compress = some true then true
  else
    let threshold :=
      if cfg.compressionThreshold ≠ 0 then cfg.compressionThreshold else 1024
    decide (jsonSize value ≥ threshold)

/-- `shouldEncrypt`. -/
def shouldEncrypt (cfg : StorageConfig) (opts : SetOpts) : Bool :=
  if !cfg.encryptionEnabled then false
  else if opts.encrypt = some false then false
  else cfg.encryptionEnabled || opts.encrypt = some true

/-- `SyncManager.getSourceId` (`chrome?.runtime?.id || 'unknown'` plus the
    timestamp). -/
def sourceId (now : Nat) : String := "unknown_" ++ toString now

/-- `SyncManager.queueChange`: last write per key wins.  The count-triggered
    `sync()` it may fire is a no-op while a cycle runs and asynchronous
    otherwise, so it does not alter the pending map here. -/
def queueChange (now : Nat) (key : String) (ty : ChangeType)
    (value : Option JVal) (pending : List (String × SyncChange)) :
    List (String × SyncChange) :=
  setProp pending key
    { key := key, type := ty, value := value, timestamp := now,
      source := sourceId now }

/-- `storeVersion` writes the superseded envelope under
    `__version:<key>:<version>` … -/
def storeVersionWrite (s : AdvState) (key : String) (prev : StorageItem) :
    AdvState :=
  { s with
      backend :=
        setProp s.backend
          ("__version:" ++ key ++ ":" ++ toString prev.metadata.version)
          (.item prev) }

/-- JS string comparison (`Array.prototype.sort` default: UTF-16 code-unit
    lexicographic). -/
def strLeChars : List Char → List Char → Bool
  | [], _ => true
  | _ :: _, [] => false
  | a :: as, b :: bs =>
    if a = b then strLeChars as bs else decide (a.val < b.val)

def strLe (a b : String) : Bool := strLeChars a.data b.data

/-- `cleanupVersions`: list all version-scoped keys of `key`, sort
    newest-first (string sort, descending), delete everything beyond the
    retention count. -/
def cleanupVersions (s : AdvState) (key : String) : AdvState :=
  let maxVersions :=
    if s.config.versioningMaxVersions ≠ 0 then s.config.versioningMaxVersions
    else 10
  let pre := "__version:" ++ key ++ ":"
  let keyVersions :=
    ((s.backend.map Prod.fst).filter (fun k => startsWithStr k pre))
  let sorted := (sortByScore strLe keyVersions).reverse
  if sorted.length > maxVersions then
    let toDelete := sorted.drop maxVersions
    { s with backend := s.backend.filter (fun p => !toDelete.contains p.1) }
  else s

/-- `storeVersion` (write + optional cleanup). -/
def storeVersion (s : AdvState) (key : String) (prev : StorageItem) :
    AdvState :=
  let s := storeVersionWrite s key prev
  if s.config.versioningAutoCleanup then cleanupVersions s key else s

/-- `deleteVersions`. -/
def deleteVersions (s : AdvState) (key : String) : AdvState :=
  let pre := "__version:" ++ key ++ ":"
  { s with backend := s.backend.filter (fun p => !startsWithStr p.1 pre) }

/-- Step (d) of `set`: conditional compress, then conditional encrypt, of
    the raw value. -/
def pipelineValue (cfg : StorageConfig) (value : JVal) (opts : SetOpts)
    (now : Nat) : ProcValue :=
  let pv1 :=
    if shouldCompress cfg value opts then
      compressValue cfg.compressionAlgorithm value
    else .plain value
  if shouldEncrypt cfg opts then encryptValue cfg.encryptionAlgorithm pv1 now
  else pv1

/-- Step (e) of `set`: the new envelope, with
    `version = previous.version + 1` (1 if none existed) and `created`
    inherited from the previous envelope. -/
def mkSetItem (cfg : StorageConfig) (now : Nat) (key : String) (value : JVal)
    (opts : SetOpts) (currentItem : Option StorageItem) : StorageItem :=
  let version :=
    match currentItem with
    | some it => it.metadata.version + 1
    | none => 1
  { id := key ++ "_" ++ toString version ++ "_" ++ toString now,
    key := key,
    value := pipelineValue cfg value opts now,
    metadata :=
      { created :=
          match currentItem with
          | some it => it.metadata.created
          | none => now,
        updated := now,
        version := version,
        size := procSize (pipelineValue cfg value opts now),
        compressed := shouldCompress cfg value opts,
        encrypted := shouldEncrypt cfg opts,
        tags := opts.tags,
        ttl := opts.ttl,
        expiresAt :=
          match opts.ttl with
          | some t => if t ≠ 0 then some (now + t) else none
          | none => none } }

/-- Steps (c)–(j) of `set` (everything after validation and quota):
    read the current envelope, build and persist the new one, archive,
    update cache, emit, enqueue. -/
def setOpWrite (now : Nat) (key : String) (value : JVal) (opts : SetOpts)
    (s : AdvState) : Except ErrKind Unit × AdvState :=
  -- `this.config` is fixed for the whole call
  let cfg := s.config
  match lookupProp s.backend (internalKey cfg key) with
  | some (.legacy _) =>
    -- `currentItem.metadata.version` on a non-envelope record throws
    -- (reading a property of `undefined`); surfaced as SET_ERROR
    (.error (.storageError "SET_ERROR"), pushEvent (.errorEv "SET_ERROR") s)
  | curr =>
    let currentItem : Option StorageItem :=
      match curr with
      | some (.item it) => some it
      | _ => none
    let item := mkSetItem cfg now key value opts currentItem
    let s :=
      { s with
          versionCounter :=
            setProp s.versionCounter key item.metadata.version }
    -- (f) persist to backend
    let s :=
      { s with
          backend := setProp s.backend (internalKey cfg key) (.item item) }
    -- (g) archive the superseded envelope
    let s :=
      if cfg.versioningEnabled then
        match currentItem with
        | some prev => storeVersion s key prev
        | none => s
      else s
    -- (h) update the cache with the decoded value
    let s :=
      if cfg.cacheEnabled then
        { s with cache := cacheSet now key (.plain value) opts.ttl s.cache }
      else s
    -- (i) change event
    let s :=
      pushEvent
        (.change key .set (currentItem.map StorageItem.value)
          (some (.plain value)) now) s
    -- (j) sync enqueue
    let s :=
      if cfg.syncEnabled then
        { s with
            pendingSync := queueChange now key .set (some value) s.pendingSync }
      else s
    (.ok (), s)

/-- `AdvancedStorage.set`.  Returns the operation result together with the
    post-state; on a throw, mutations made before the throw (the emitted
    error event) are retained, matching the source's catch-emit-rethrow. -/
def setOp (now : Nat) (key : String) (value : JVal) (opts : SetOpts)
    (s : AdvState) : Except ErrKind Unit × AdvState :=
  -- (a) schema validation; ValidationError aborts before any side effect
  if validationFails s key value then
    (.error .validationError, pushEvent (.errorEv "SET_ERROR") s)
  else
    -- (b) checkQuota: currentSize + estimateSize(value) against the byte
    -- quota (`maxSize` MB), throwing QuotaExceededError before any mutation
    let itemSize := jsonSize value
    let currentSize := backendSize s.backend
    let quota := s.config.quotaMaxMB * 1048576
    if s.config.quotaEnforce && decide (currentSize + itemSize > quota) then
      (.error (.quotaExceeded (currentSize + itemSize) quota),
        pushEvent (.errorEv "SET_ERROR") s)
    else
      -- quota warning (does not block the write); the percentage test
      -- `(usage/quota)*100 >= warnAt` is stated by cross-multiplication
      setOpWrite now key value opts
        (if s.config.quotaEnforce &&
            decide ((currentSize + itemSize) * 100 ≥ s.config.quotaWarnAt * quota)
         then pushEvent .quotaWarning s else s)

/-- `AdvancedStorage.delete`. -/
def deleteOp (now : Nat) (key : String) (s : AdvState) :
    Except ErrKind Unit × AdvState :=
  -- `this.config` is fixed for the whole call
  let cfg := s.config
  let currentItem := lookupProp s.backend (internalKey cfg key)
  let s :=
    { s with backend := eraseProp s.backend (internalKey cfg key) }
  let s :=
    if cfg.cacheEnabled then { s with cache := cacheDelete key s.cache }
    else s
  let s := if cfg.versioningEnabled then deleteVersions s key else s
  let s :=
    pushEvent
      (.change key .del (currentItem.bind bvEventValue) none now) s
  let s :=
    if cfg.syncEnabled then
      { s with pendingSync := queueChange now key .del none s.pendingSync }
    else s
  (.ok (), s)

/-- `AdvancedStorage.clear`. -/
def clearOp (now : Nat) (s : AdvState) : Except ErrKind Unit × AdvState :=
  -- `this.config` is fixed for the whole call
  let cfg := s.config
  let s := { s with backend := [] }
  let s :=
    if cfg.cacheEnabled then { s with cache := cacheClear s.cache }
    else s
  let s := { s with versionCounter := [] }
  let s := pushEvent (.change "*" .clear none none now) s
  let s :=
    if cfg.syncEnabled then
      { s with pendingSync := queueChange now "*" .clear none s.pendingSync }
    else s
  (.ok (), s)

/-- `item as unknown as T` on the legacy path: the raw stored value. -/
def rawAsProc : BackendValue → ProcValue
  | .legacy v => .plain v
  | .item it => it.value

/-- JS truthiness of a possibly-absent dynamic value. -/
def truthy : Option JVal → Bool
  | none => false
  | some .null => false
  | some (.bool b) => b
  | some (.num n) => decide (n ≠ 0)
  | some (.str s) => decide (s ≠ "")
  | some (.arr _) => true
  | some (.obj _) => true

/-- Property access on a dynamic value that is not `null`/`undefined`
    (primitives and arrays have none of the names read here). -/
def jPropOn (v : JVal) (k : String) : Option JVal :=
  match v with
  | .obj fields => jFieldOf fields k
  | _ => none

/-- A dynamic `ttl` as handed to `cache.set` (only a positive number is a
    usable TTL; anything else is falsy or not a duration). -/
def jsNumO : Option JVal → Option Nat
  | some (.num n) => if n > 0 then some n.toNat else none
  | _ => none

/-- The decode path of `get` on a proper envelope. -/
def envelopeGet (now : Nat) (key : String) (it : StorageItem) (s : AdvState) :
    Except ErrKind (Option ProcValue) × AdvState :=
  let dec1 : Except ErrKind ProcValue :=
    if it.metadata.encrypted && s.config.encryptionEnabled then
      match decryptValue it.value with
      | some p => .ok p
      | none => .error .encryptionError
    else .ok it.value
  match dec1 with
  | .error e => (.error e, pushEvent (.errorEv "GET_ERROR") s)
  | .ok v1 =>
    let dec2 : Except ErrKind ProcValue :=
      if it.metadata.compressed && s.config.compressionEnabled then
        match decompressValue v1 with
        | some d => .ok (.plain d)
        | none => .error (.storageError "DECOMPRESSION_ERROR")
      else .ok v1
    match dec2 with
    | .error e => (.error e, pushEvent (.errorEv "GET_ERROR") s)
    | .ok v2 =>
      let s :=
        if s.config.cacheEnabled then
          { s with cache := cacheSet now key v2 it.metadata.ttl s.cache }
        else s
      (.ok (some v2), s)

/-- The decode path of `get` on a legacy record that happens to have the
    envelope shape: the metadata flags are read dynamically; a `null`
    metadata throws, and a truthy codec flag sends a payload the opaque
    codec cannot decode (not produced by this pipeline) into the
    corresponding codec error. -/
def legacyEnvelopeGet (now : Nat) (key : String)
    (fields : List (String × JVal)) (s : AdvState) :
    Except ErrKind (Option ProcValue) × AdvState :=
  let md := (jFieldOf fields "metadata").getD .null
  match md with
  | .null =>
    (.error (.storageError "GET_ERROR"), pushEvent (.errorEv "GET_ERROR") s)
  | _ =>
    if truthy (jPropOn md "encrypted") && s.config.encryptionEnabled then
      (.error .encryptionError, pushEvent (.errorEv "GET_ERROR") s)
    else if truthy (jPropOn md "compressed") && s.config.compressionEnabled
    then
      (.error (.storageError "DECOMPRESSION_ERROR"),
        pushEvent (.errorEv "GET_ERROR") s)
    else
      let v := (jFieldOf fields "value").getD .null
      let s :=
        if s.config.cacheEnabled then
          { s with
              cache := cacheSet now key (.plain v) (jsNumO (jPropOn md "ttl")) s.cache }
        else s
      (.ok (some (.plain v)), s)

/-- `if (!item) { return null }`: JS truthiness of the record the adapter
    returned.  A proper envelope is an object, hence always truthy; a legacy
    record is exactly as truthy as the raw stored value, so a stored `0`,
    `""`, `false` or `null` takes this early return. -/
def bvTruthy : BackendValue → Bool
  | .item _ => true
  | .legacy v => truthy (some v)

/-- `AdvancedStorage.get`. -/
def getOp (now : Nat) (key : String) (s : AdvState) :
    Except ErrKind (Option ProcValue) × AdvState :=
  let cachedAndState :=
    if s.config.cacheEnabled then
      let rc := cacheGet now key s.cache
      (rc.1, { s with cache := rc.2 })
    else (none, s)
  let cached := cachedAndState.1
  let s := cachedAndState.2
  match cached with
  | some v => (.ok (some v), s)
  | none =>
    match lookupProp s.backend (internalKey s.config key) with
    | none => (.ok none, s)
    | some bv =>
      if !bvTruthy bv then (.ok none, s)
      else if isStorageItemB bv then
        match bv with
        | .item it => envelopeGet now key it s
        | .legacy j =>
          match j with
          | .obj fields => legacyEnvelopeGet now key fields s
          | _ =>
            -- unreachable: a non-object is never envelope-shaped
            (.ok (some (rawAsProc bv)), s)
      else
        (.ok (some (rawAsProc bv)), s)

/-! ## Synchronization engine (sync-manager.ts) -/

/-- `{ ...base, ...props }`: object-literal spread, later keys override. -/
def spreadInto (base : List (String × JVal)) (props : List (String × JVal)) :
    List (String × JVal) :=
  props.foldl (fun acc p => setProp acc p.1 p.2) base

/-- Own enumerable properties contributed by spreading a value into an
    object literal: objects give their fields, arrays and strings their
    index-keyed elements, primitives and `null` nothing. -/
def spreadProps : JVal → List (String × JVal)
  | .obj fields => fields
  | .arr elems => elems.enum.map (fun p => (toString p.1, p.2))
  | .str s => s.data.enum.map (fun p => (toString p.1, JVal.str (String.mk [p.2])))
  | .null => []
  | .bool _ => []
  | .num _ => []

mutual

/-- Structural equality used by `new Set` dedup on primitives (JS
    `SameValueZero`; on objects JS compares references, but the branch using
    it is unreachable — see `mergeValues`). -/
def jvalBeq : JVal → JVal → Bool
  | .null, .null => true
  | .bool a, .bool b => a = b
  | .num a, .num b => a = b
  | .str a, .str b => a = b
  | .arr xs, .arr ys => jvalBeqArr xs ys
  | .obj fs, .obj gs => jvalBeqObj fs gs
  | _, _ => false

def jvalBeqArr : List JVal → List JVal → Bool
  | [], [] => true
  | x :: xs, y :: ys => jvalBeq x y && jvalBeqArr xs ys
  | _, _ => false

def jvalBeqObj : List (String × JVal) → List (String × JVal) → Bool
  | [], [] => true
  | (k, v) :: xs, (k', v') :: ys => k = k' && jvalBeq v v' && jvalBeqObj xs ys
  | _, _ => false

end

/-- `[...new Set(l)]`: first occurrence of each element is kept. -/
def dedupKeepFirst (l : List JVal) : List JVal :=
  go l []
where
  go : List JVal → List JVal → List JVal
    | [], _ => []
    | x :: xs, seen =>
      if seen.any (fun y => jvalBeq y x) then go xs seen
      else x :: go xs (x :: seen)

/-- `SyncManager.mergeValues`.  NOTE: `typeof` of an array (and of `null`)
    is `'object'`, so two arrays take the first branch and are spread into an
    index-keyed object; the `Array.isArray` branch is dead code. -/
def mergeValues (localV remoteV : JVal) : JVal :=
  if jsTypeof localV = "object" && jsTypeof remoteV = "object" then
    .obj (spreadInto (spreadInto [] (spreadProps remoteV)) (spreadProps localV))
  else if isArray localV && isArray remoteV then
    match localV, remoteV with
    | .arr xs, .arr ys => .arr (dedupKeepFirst (xs ++ ys))
    | _, _ => localV
  else localV

/-- `mergeValues` when the remote value may be absent (`undefined` is
    neither `typeof 'object'` nor an array, so the local value is kept). -/
def mergeValuesO (localV : JVal) (remoteV : Option JVal) : JVal :=
  match remoteV with
  | some r => mergeValues localV r
  | none => localV

/-- A conflict as recorded by `applyRemoteChanges`: the local value is the
    decoded result of `storage.get`. -/
structure SyncConflictM where
  key : String
  localValue : ProcValue
  remoteValue : Option JVal
  localTimestamp : Nat
  remoteTimestamp : Nat

/-- A wrapper object seen as the dynamic JS value it is (payload opaque:
    sealed base64 text). -/
def pvToDyn : ProcValue → JVal
  | .plain v => v
  | .comp a _ o c =>
    .obj [("algorithm", .str a), ("data", .str "(sealed)"),
      ("originalSize", .num o), ("compressedSize", .num c)]
  | .enc a _ n =>
    .obj [("algorithm", .str a), ("data", .str "(sealed)"),
      ("nonce", .num n)]

/-- Provider report for a push (`SyncResult` of the provider contract). -/
structure PushResultM where
  success : Bool
  synced : Nat
  conflicts : List SyncConflictM
  errors : Nat

/-- Combined result of one cycle with one provider. -/
structure SyncResultM where
  success : Bool
  synced : Nat
  conflicts : List SyncConflictM
  errors : Nat

/-- A sync provider (external collaborator, §6): both calls may throw. -/
structure ProviderM where
  pushFn : List SyncChange → Except Unit PushResultM
  pullFn : Except Unit (List SyncChange)

/-- One iteration of the loop in `applyRemoteChanges`; the whole body sits
    in a per-change try/catch, so an error leaves that change skipped with
    prior mutations retained. -/
def applyOneRemote (now : Nat) (change : SyncChange) (st : AdvState) :
    Option SyncConflictM × AdvState :=
  match getOp now change.key st with
  | (.error _, st1) => (none, st1)
  | (.ok localValue, st1) =>
    match localValue, change.type with
    | some lv, .set =>
      (some
        { key := change.key, localValue := lv, remoteValue := change.value,
          localTimestamp := now, remoteTimestamp := change.timestamp }, st1)
    | _, _ =>
      match change.type with
      | .set => (none, (setOp now change.key (change.value.getD .null) {} st1).2)
      | .del => (none, (deleteOp now change.key st1).2)
      | .clear => (none, (clearOp now st1).2)

/-- `SyncManager.applyRemoteChanges`. -/
def applyRemoteChanges (now : Nat) (changes : List SyncChange)
    (st : AdvState) : List SyncConflictM × AdvState :=
  changes.foldl
    (fun acc c =>
      let r := applyOneRemote now c acc.2
      (acc.1 ++ r.1.toList, r.2))
    ([], st)

/-- `SyncManager.syncWithProvider`: push the pending changes, pull remote
    changes, apply them, and clear the pending map only when the push
    reported success.  A throw from the provider propagates (state mutations
    made before the throw are none). -/
def syncWithProvider (now : Nat) (p : ProviderM) (st : AdvState) :
    Except Unit (SyncResultM × AdvState) :=
  let changes := st.pendingSync.map Prod.snd
  match p.pushFn changes with
  | .error _ => .error ()
  | .ok pushResult =>
    match p.pullFn with
    | .error _ => .error ()
    | .ok remoteChanges =>
      let applied := applyRemoteChanges now remoteChanges st
      let st2 :=
        if pushResult.success then { applied.2 with pendingSync := [] }
        else applied.2
      .ok
        ({ success := pushResult.success,
           synced := pushResult.synced + remoteChanges.length,
           conflicts := pushResult.conflicts ++ applied.1,
           errors := pushResult.errors }, st2)

/-- Conflict-resolution policy (`config.sync.conflictResolution`). -/
inductive ResolutionPolicy where
  | localP : ResolutionPolicy
  | remoteP : ResolutionPolicy
  | mergeP : ResolutionPolicy
  | manualP : ResolutionPolicy

/-- One iteration of `resolveConflicts` (errors are caught per conflict). -/
def resolveOneConflict (now : Nat) (policy : ResolutionPolicy)
    (c : SyncConflictM) (st : AdvState) : AdvState :=
  match policy with
  | .localP => st
  | .remoteP => (setOp now c.key (c.remoteValue.getD .null) {} st).2
  | .mergeP =>
    (setOp now c.key (mergeValuesO (pvToDyn c.localValue) c.remoteValue) {} st).2
  | .manualP => pushEvent (.conflictEv c.key) st

def resolveConflicts (now : Nat) (policy : ResolutionPolicy)
    (conflicts : List SyncConflictM) (st : AdvState) : AdvState :=
  conflicts.foldl (fun st c => resolveOneConflict now policy c st) st

/-- The sync manager's own mutable state. -/
structure SyncMState where
  enabled : Bool
  conflictResolution : ResolutionPolicy
  syncing : Bool
  lastSyncTime : Option Nat

/-- `SyncManager.combineResults`. -/
def combineResults (results : List SyncResultM) : SyncResultM :=
  { success := results.all (·.success),
    synced := (results.map (·.synced)).sum,
    conflicts := results.foldl (fun acc r => acc ++ r.conflicts) [],
    errors := (results.map (·.errors)).sum }

/-- `SyncManager.sync`: the full cycle.  The `syncing` flag is the
    re-entrancy guard: a call arriving while a cycle is in flight observes
    `syncing = true` and returns immediately (`none`: no per-provider
    results were even collected).  Per-provider failures are isolated by the
    try/catch inside the loop. -/
def syncOp (now : Nat) (providers : List ProviderM) (sm : SyncMState)
    (st : AdvState) : SyncMState × AdvState × Option SyncResultM :=
  if sm.syncing || !sm.enabled then (sm, st, none)
  else
    let st := pushEvent .syncStart st
    let looped :=
      providers.foldl
        (fun (acc : List SyncResultM × AdvState) p =>
          match syncWithProvider now p acc.2 with
          | .ok ra => (acc.1 ++ [ra.1], ra.2)
          | .error _ =>
            (acc.1 ++
              [({ success := false, synced := 0, conflicts := [],
                  errors := 1 } : SyncResultM)],
              acc.2))
        ([], st)
    let combined := combineResults looped.1
    let st2 :=
      if combined.conflicts.length > 0 then
        resolveConflicts now sm.conflictResolution combined.conflicts looped.2
      else looped.2
    let st3 := pushEvent (.syncComplete combined.success) st2
    ({ sm with syncing := false, lastSyncTime := some now }, st3, some combined)

/-! ## Supporting lemmas -/

theorem lookupProp_filter_none {α : Type} (l : List (String × α))
    (pred : String × α → Bool) (k : String)
    (h : lookupProp l k = none) :
    lookupProp (l.filter pred) k = none := by
  induction l with
  | nil => simp [lookupProp]
  | cons hd tl ih =>
    obtain ⟨k0, v0⟩ := hd
    by_cases h0 : k0 = k
    · subst h0; simp [lookupProp] at h
    · simp only [lookupProp, if_neg h0] at h
      by_cases hp : pred (k0, v0) <;>
        simp [List.filter, hp, lookupProp, h0, ih h]

theorem lookupProp_filter_of_pred {α : Type} (l : List (String × α))
    (pred : String × α → Bool) (k : String)
    (h : ∀ v, pred (k, v) = true) :
    lookupProp (l.filter pred) k = lookupProp l k := by
  induction l with
  | nil => simp [lookupProp]
  | cons hd tl ih =>
    obtain ⟨k0, v0⟩ := hd
    by_cases h0 : k0 = k
    · subst h0
      simp [List.filter, h v0, lookupProp]
    · by_cases hp : pred (k0, v0) <;>
        simp [List.filter, hp, lookupProp, h0, ih]

theorem setProp_of_lookup_none {α : Type} (l : List (String × α))
    (k : String) (v : α) (h : lookupProp l k = none) :
    setProp l k v = l ++ [(k, v)] := by
  induction l with
  | nil => simp [setProp]
  | cons hd tl ih =>
    obtain ⟨k0, v0⟩ := hd
    by_cases h0 : k0 = k
    · subst h0; simp [lookupProp] at h
    · simp only [lookupProp, if_neg h0] at h
      simp [setProp, h0, ih h]

theorem eraseProp_of_forall_ne {α : Type} (l : List (String × α))
    (k : String) (h : ∀ p ∈ l, p.1 ≠ k) : eraseProp l k = l := by
  induction l with
  | nil => rfl
  | cons hd tl ih =>
    have h1 : hd.1 ≠ k := h hd (List.mem_cons_self hd tl)
    have h2 : ∀ p ∈ tl, p.1 ≠ k := fun p hp => h p (List.mem_cons_of_mem hd hp)
    simpa [eraseProp, List.filter, h1] using ih h2

theorem length_eraseProp_of_mem {α : Type} (l : List (String × α))
    (k : String) (e : α) (hmem : (k, e) ∈ l)
    (hnd : (keysOf l).Nodup) :
    (eraseProp l k).length + 1 = l.length := by
  induction l with
  | nil => simp at hmem
  | cons hd tl ih =>
    obtain ⟨k0, v0⟩ := hd
    simp only [keysOf, List.map_cons, List.nodup_cons] at hnd
    by_cases h0 : k0 = k
    · subst h0
      have hall : ∀ p ∈ tl, p.1 ≠ k0 := by
        intro p hp he
        exact hnd.1 (he ▸ List.mem_map_of_mem Prod.fst hp)
      have herase := eraseProp_of_forall_ne tl k0 hall
      simp only [eraseProp] at herase ⊢
      simp [List.filter, herase]
      exact fun a b hab => hall (a, b) hab
    · rcases List.mem_cons.mp hmem with hem | hem
      · exact absurd (congrArg Prod.fst hem).symm h0
      · have := ih hem hnd.2
        simp only [eraseProp, List.filter] at *
        simp [h0] at *
        omega

theorem mem_insSorted {α : Type} (le : α → α → Bool) (x a : α)
    (l : List α) : a ∈ insSorted le x l ↔ a = x ∨ a ∈ l := by
  induction l with
  | nil => simp [insSorted]
  | cons hd tl ih =>
    by_cases h : le x hd
    · simp [insSorted, h]
    · simp [insSorted, h, ih]
      tauto

theorem mem_sortByScore {α : Type} (le : α → α → Bool) (a : α)
    (l : List α) : a ∈ sortByScore le l ↔ a ∈ l := by
  induction l with
  | nil => simp [sortByScore]
  | cons hd tl ih =>
    simp [sortByScore, mem_insSorted, ih]

theorem containsStr_iff (l : List String) (k : String) :
    l.contains k = true ↔ k ∈ l := by
  induction l with
  | nil => simp
  | cons hd tl ih => simp [List.contains, ih]

/-- `storeVersion` touches only the backend, and only at keys carrying the
    `__version:<key>:` tag. -/
theorem storeVersion_spec (s : AdvState) (key : String) (prev : StorageItem) :
    (storeVersion s key prev).config = s.config ∧
    (storeVersion s key prev).cache = s.cache ∧
    (storeVersion s key prev).schemas = s.schemas ∧
    ∀ k', startsWithStr k' ("__version:" ++ key ++ ":") = false →
      lookupProp (storeVersion s key prev).backend k' =
        lookupProp s.backend k' := by
  unfold storeVersion storeVersionWrite cleanupVersions
  set pre := "__version:" ++ key ++ ":" with hpre
  dsimp only
  refine ⟨?_, ?_, ?_, ?_⟩
  · (repeat' split) <;> rfl
  · (repeat' split) <;> rfl
  · (repeat' split) <;> rfl
  · intro k' hk'
    have hkv : pre ++ toString prev.metadata.version ≠ k' := by
      intro he
      rw [← he, startsWithStr_append] at hk'
      exact Bool.noConfusion hk'
    set X :=
      setProp s.backend (pre ++ toString prev.metadata.version)
        (BackendValue.item prev) with hX
    have hset : lookupProp X k' = lookupProp s.backend k' :=
      lookupProp_setProp_ne _ _ _ _ hkv
    -- any pruned key carries the version tag, so pruning preserves k'
    have hgen : ∀ n : Nat,
        lookupProp
          (List.filter
            (fun p =>
              !(List.drop n
                  (sortByScore strLe
                    (List.filter (fun k => startsWithStr k pre)
                      (List.map Prod.fst X))).reverse).contains p.1)
            X) k' = lookupProp s.backend k' := by
      intro n
      refine Eq.trans (lookupProp_filter_of_pred _ _ _ ?_) hset
      intro v
      have hnm : k' ∉
          (List.drop n
            (sortByScore strLe
              (List.filter (fun k => startsWithStr k pre)
                (List.map Prod.fst X))).reverse) := by
        intro hm
        have h2 :=
          (List.mem_filter.mp
            ((mem_sortByScore _ _ _).mp
              (List.mem_reverse.mp (List.mem_of_mem_drop hm)))).2
        rw [h2] at hk'
        exact Bool.noConfusion hk'
      have hc :
          (List.drop n
            (sortByScore strLe
              (List.filter (fun k => startsWithStr k pre)
                (List.map Prod.fst X))).reverse).contains k' = false := by
        rw [← Bool.not_eq_true]
        intro hcc
        exact hnm ((containsStr_iff _ _).mp hcc)
      simpa using hnm
    repeat' split
    all_goals first
      | exact hset
      | exact hgen _

/-- Characterisation of a successful `setOpWrite`: the envelope
    `mkSetItem … currentItem` is persisted under the internal key, the cache
    is updated with the decoded value, and config/schemas are untouched. -/
theorem setOpWrite_ok_spec (now : Nat) (key : String) (value : JVal)
    (opts : SetOpts) (s : AdvState) (optCurr : Option StorageItem)
    (hcur : lookupProp s.backend (internalKey s.config key) =
      optCurr.map BackendValue.item)
    (hnv : startsWithStr (internalKey s.config key)
      ("__version:" ++ key ++ ":") = false) :
    (setOpWrite now key value opts s).1 = .ok () ∧
    (setOpWrite now key value opts s).2.config = s.config ∧
    (setOpWrite now key value opts s).2.schemas = s.schemas ∧
    lookupProp (setOpWrite now key value opts s).2.backend
        (internalKey s.config key) =
      some (.item (mkSetItem s.config now key value opts optCurr)) ∧
    (setOpWrite now key value opts s).2.cache =
      (if s.config.cacheEnabled then
        cacheSet now key (.plain value) opts.ttl s.cache
      else s.cache) := by
  cases optCurr with
  | none =>
    simp only [Option.map] at hcur
    simp only [setOpWrite, hcur]
    refine ⟨?_, ?_, ?_, ?_, ?_⟩ <;>
      simp only [ite_self] <;>
      (repeat' split) <;>
      simp_all [pushEvent, lookupProp_setProp_self]
  | some it =>
    simp only [Option.map] at hcur
    simp only [setOpWrite, hcur]
    -- versioning branch: `storeVersion` may run; it preserves what we need
    by_cases hv : s.config.versioningEnabled
    · have hsv := storeVersion_spec
        { s with
            versionCounter :=
              setProp s.versionCounter key
                (mkSetItem s.config now key value opts (some it)).metadata.version,
            backend :=
              setProp s.backend (internalKey s.config key)
                (.item (mkSetItem s.config now key value opts (some it))) }
        key it
      have hlook := hsv.2.2.2 (internalKey s.config key) hnv
      refine ⟨?_, ?_, ?_, ?_, ?_⟩ <;>
        simp only [hv, if_true] <;>
        (repeat' split) <;>
        simp_all [pushEvent, hsv.1, hsv.2.1, hsv.2.2.1,
          lookupProp_setProp_self]
    · refine ⟨?_, ?_, ?_, ?_, ?_⟩ <;>
        simp only [hv, if_false] <;>
        (repeat' split) <;>
        simp_all [pushEvent, lookupProp_setProp_self]

/-- Characterisation of a successful `set`: validation and quota pass, the
    envelope `mkSetItem … optCurr` is persisted, the cache is updated with
    the decoded value. -/
theorem setOp_ok_spec (now : Nat) (key : String) (value : JVal)
    (opts : SetOpts) (s : AdvState) (optCurr : Option StorageItem)
    (hval : validationFails s key value = false)
    (hqc : (s.config.quotaEnforce &&
      decide (backendSize s.backend + jsonSize value >
        s.config.quotaMaxMB * 1048576)) = false)
    (hcur : lookupProp s.backend (internalKey s.config key) =
      optCurr.map BackendValue.item)
    (hnv : startsWithStr (internalKey s.config key)
      ("__version:" ++ key ++ ":") = false) :
    (setOp now key value opts s).1 = .ok () ∧
    (setOp now key value opts s).2.config = s.config ∧
    (setOp now key value opts s).2.schemas = s.schemas ∧
    lookupProp (setOp now key value opts s).2.backend
        (internalKey s.config key) =
      some (.item (mkSetItem s.config now key value opts optCurr)) ∧
    (setOp now key value opts s).2.cache =
      (if s.config.cacheEnabled then
        cacheSet now key (.plain value) opts.ttl s.cache
      else s.cache) := by
  simp only [setOp, hval, Bool.false_eq_true, if_false, hqc]
  split
  · exact setOpWrite_ok_spec now key value opts (pushEvent .quotaWarning s)
      optCurr hcur hnv
  · exact setOpWrite_ok_spec now key value opts s optCurr hcur hnv

/-- `validationFails` is false when no schema is registered for the key's
    namespace prefix. -/
theorem validationFails_of_no_schema (s : AdvState) (key : String)
    (value : JVal) (hsch : lookupProp s.schemas (schemaKeyOf key) = none) :
    validationFails s key value = false := by
  simp [validationFails, hsch]

/-- N repeated `set(k, vᵢ)` calls (two-argument form, no options). -/
def setMany (now : Nat) (key : String) (vals : List JVal) (s : AdvState) :
    AdvState :=
  vals.foldl (fun st v => (setOp now key v {} st).2) s

theorem setMany_version_aux (now : Nat) (key : String) :
    ∀ (vals : List JVal) (s : AdvState) (n : Nat),
      lookupProp s.schemas (schemaKeyOf key) = none →
      s.config.quotaEnforce = false →
      startsWithStr (internalKey s.config key)
        ("__version:" ++ key ++ ":") = false →
      ((n = 0 ∧
          lookupProp s.backend (internalKey s.config key) = none) ∨
        (∃ it : StorageItem,
          lookupProp s.backend (internalKey s.config key) =
            some (.item it) ∧ it.metadata.version = n)) →
      (setMany now key vals s).config = s.config ∧
      ((n + vals.length = 0 ∧
          lookupProp (setMany now key vals s).backend
            (internalKey s.config key) = none) ∨
        (∃ it : StorageItem,
          lookupProp (setMany now key vals s).backend
            (internalKey s.config key) = some (.item it) ∧
          it.metadata.version = n + vals.length)) := by
  intro vals
  induction vals with
  | nil =>
    intro s n hsch hq hnv hinv
    exact ⟨rfl, by simpa using hinv⟩
  | cons v rest ih =>
    intro s n hsch hq hnv hinv
    -- the current call succeeds and bumps the version
    have hval := validationFails_of_no_schema s key v hsch
    have hqc : (s.config.quotaEnforce &&
        decide (backendSize s.backend + jsonSize v >
          s.config.quotaMaxMB * 1048576)) = false := by
      simp [hq]
    have hstep : ∀ (optCurr : Option StorageItem),
        lookupProp s.backend (internalKey s.config key) =
          optCurr.map BackendValue.item →
        (mkSetItem s.config now key v {} optCurr).metadata.version =
          (match optCurr with
            | some it => it.metadata.version + 1
            | none => 1) := by
      intro optCurr _
      cases optCurr <;> rfl
    have hmain : ∀ (optCurr : Option StorageItem),
        lookupProp s.backend (internalKey s.config key) =
          optCurr.map BackendValue.item →
        (match optCurr with
          | some it => it.metadata.version + 1
          | none => 1) = n + 1 →
        (setMany now key (v :: rest) s).config = s.config ∧
        ((n + (v :: rest).length = 0 ∧
            lookupProp (setMany now key (v :: rest) s).backend
              (internalKey s.config key) = none) ∨
          (∃ it : StorageItem,
            lookupProp (setMany now key (v :: rest) s).backend
              (internalKey s.config key) = some (.item it) ∧
            it.metadata.version = n + (v :: rest).length)) := by
      intro optCurr hcur hbump
      obtain ⟨hok, hcfg, hsche, hlook, hcache⟩ :=
        setOp_ok_spec now key v {} s optCurr hval hqc hcur hnv
      set s1 := (setOp now key v {} s).2 with hs1
      have hik : internalKey s1.config key = internalKey s.config key := by
        rw [hcfg]
      have hnext := ih s1 (n + 1)
        (by rw [hsche]; exact hsch)
        (by rw [hcfg]; exact hq)
        (by rw [hik]; exact hnv)
        (Or.inr ⟨mkSetItem s.config now key v {} optCurr,
          by rw [hik]; exact hlook,
          by rw [hstep optCurr hcur]; exact hbump⟩)
      have hfold : setMany now key (v :: rest) s = setMany now key rest s1 := rfl
      rw [hfold]
      refine ⟨(hnext.1).trans hcfg, ?_⟩
      have hres := hnext.2
      rw [hik] at hres
      have harith : n + 1 + rest.length = n + (v :: rest).length := by
        simp [List.length_cons]
        omega
      rw [harith] at hres
      exact hres
    rcases hinv with ⟨hn0, hnone⟩ | ⟨it, hlook, hver⟩
    · subst hn0
      exact hmain none (by simpa using hnone) rfl
    · exact hmain (some it) (by simpa using hlook)
        (by show it.metadata.version + 1 = n + 1; rw [hver])

theorem shouldEncrypt_enabled (cfg : StorageConfig) (opts : SetOpts)
    (h : shouldEncrypt cfg opts = true) : cfg.encryptionEnabled = true := by
  by_cases he : cfg.encryptionEnabled
  · exact he
  · simp [shouldEncrypt, he] at h

theorem shouldCompress_enabled (cfg : StorageConfig) (value : JVal)
    (opts : SetOpts) (h : shouldCompress cfg value opts = true) :
    cfg.compressionEnabled = true := by
  by_cases hc : cfg.compressionEnabled
  · exact hc
  · simp [shouldCompress, hc] at h

@[simp] theorem decompressValue_compressValue (a : String) (v : JVal) :
    decompressValue (compressValue a v) = some v := by
  unfold compressValue
  split <;> rfl

/-- A `cache.set(k, v)` immediately followed by `cache.get(k)` at the same
    instant is a live hit returning `v`. -/
theorem cacheGet_cacheSet_hit (now : Nat) (k : String) (v : ProcValue)
    (ttl : Option Nat) (c : CacheState) :
    (cacheGet now k (cacheSet now k v ttl c)).1 = some v := by
  have hent :
      lookupProp (cacheSet now k v ttl c).entries k =
        some
          { key := k, value := v, size := procSize v, frequency := 1,
            createdAt := now, accessedAt := now,
            expiresAt := cacheExpiry now ttl c.ttlDefault } := by
    simp [cacheSet, lookupProp_setProp_self]
  have hlive : ∀ e : CacheEntry,
      e.expiresAt = cacheExpiry now ttl c.ttlDefault → isExpired now e = false := by
    intro e he
    unfold isExpired
    rw [he]
    unfold cacheExpiry
    rcases ttl with _ | t
    · by_cases hd : c.ttlDefault = 0
      · simp [hd]
      · simp [hd] <;> omega
    · by_cases ht : t = 0
      · by_cases hd : c.ttlDefault = 0
        · simp [ht, hd]
        · simp [ht, hd] <;> omega
      · simp [ht] <;> omega
  simp only [cacheGet, hent]
  rw [hlive _ rfl]
  simp

/-- Decoding (`decrypt` then `decompress`) inverts the write pipeline of
    `set` on the produced envelope, for every codec configuration. -/
theorem envelopeGet_decodes (cfg : StorageConfig) (nowSet nowGet : Nat)
    (key : String) (value : JVal) (opts : SetOpts)
    (optCurr : Option StorageItem) (s : AdvState) (hcfg : s.config = cfg) :
    (envelopeGet nowGet key (mkSetItem cfg nowSet key value opts optCurr) s).1 =
      .ok (some (.plain value)) := by
  by_cases hE : shouldEncrypt cfg opts
  · have hEnabled : cfg.encryptionEnabled = true := shouldEncrypt_enabled _ _ hE
    by_cases hC : shouldCompress cfg value opts
    · have hCEnabled := shouldCompress_enabled _ value _ hC
      simp only [envelopeGet, mkSetItem, pipelineValue, hE, hC, if_true, hcfg,
        hEnabled, hCEnabled, Bool.and_self, encryptValue, decryptValue,
        decompressValue_compressValue]
      try first
        | rfl
        | (split <;> rfl)
    · simp only [envelopeGet, mkSetItem, pipelineValue, hE, hC, if_true,
        if_false, hcfg, hEnabled, Bool.and_true, Bool.and_false,
        Bool.false_and, Bool.true_and, encryptValue, decryptValue,
        Bool.false_eq_true]
      try first
        | rfl
        | (split <;> rfl)
  · by_cases hC : shouldCompress cfg value opts
    · have hCEnabled := shouldCompress_enabled _ value _ hC
      simp only [envelopeGet, mkSetItem, pipelineValue, hE, hC, if_true,
        if_false, hcfg, hCEnabled, Bool.and_true, Bool.false_and,
        Bool.true_and, decompressValue_compressValue, Bool.false_eq_true]
      try first
        | rfl
        | (split <;> rfl)
    · simp only [envelopeGet, mkSetItem, pipelineValue, hE, hC, if_false,
      hcfg, Bool.false_and, Bool.false_eq_true]
      try first
        | rfl
        | (split <;> rfl)

/-! ## Claim theorems -/

/-- Shared concrete fixtures for witnesses. -/
def cfgFix : StorageConfig :=
  { nspace := "default", compressionEnabled := false,
    compressionAlgorithm := "gzip", compressionThreshold := 1024,
    encryptionEnabled := false, encryptionAlgorithm := "AES-GCM",
    cacheEnabled := true, syncEnabled := true, versioningEnabled := true,
    versioningMaxVersions := 10, versioningAutoCleanup := true,
    quotaEnforce := false, quotaMaxMB := 100, quotaWarnAt := 80 }

def cacheFix : CacheState :=
  { entries := [], frequencyMap := [], maxSize := 1000,
    maxMemory := 10485760, ttlDefault := 3600000, hits := 0, misses := 0,
    evictions := 0, writes := 0, reads := 0, memoryUsage := 0 }

def stFix : AdvState :=
  { config := cfgFix, backend := [], cache := cacheFix, schemas := [],
    versionCounter := [], pendingSync := [], events := [] }

/-- C1.  A successful `get(k)` performed right after a successful
    `set(k, v)` (no intervening writes) returns a value deep-equal to `v`,
    whatever combination of compression and encryption the configuration
    and options selected for the write: on a cache-enabled configuration the
    decoded value is served from the cache entry the `set` wrote; otherwise
    the envelope is read back and `decrypt`/`decompress` invert the write
    pipeline. -/
theorem claimC1_get_after_set_roundtrip (now : Nat) (key : String)
    (value : JVal) (opts : SetOpts) (s : AdvState)
    (optCurr : Option StorageItem)
    (hval : validationFails s key value = false)
    (hqc : (s.config.quotaEnforce &&
      decide (backendSize s.backend + jsonSize value >
        s.config.quotaMaxMB * 1048576)) = false)
    (hcur : lookupProp s.backend (internalKey s.config key) =
      optCurr.map BackendValue.item)
    (hnv : startsWithStr (internalKey s.config key)
      ("__version:" ++ key ++ ":") = false) :
    (setOp now key value opts s).1 = .ok () ∧
    (getOp now key (setOp now key value opts s).2).1 =
      .ok (some (.plain value)) := by
  obtain ⟨hok, hcfg, hsche, hlook, hcache⟩ :=
    setOp_ok_spec now key value opts s optCurr hval hqc hcur hnv
  refine ⟨hok, ?_⟩
  set s1 := (setOp now key value opts s).2 with hs1
  by_cases hc : s.config.cacheEnabled
  · -- cache-enabled: the `set` populated the cache; `get` hits it
    have hc1 : s1.config.cacheEnabled = true := by rw [hcfg]; exact hc
    rw [if_pos hc] at hcache
    have hhit :
        (cacheGet now key s1.cache).1 = some (ProcValue.plain value) := by
      rw [hcache]
      exact cacheGet_cacheSet_hit now key _ opts.ttl s.cache
    simp only [getOp, hc1, if_true]
    rw [hhit]
  · -- cache-disabled: the envelope is read back and decoded
    have hc1 : s1.config.cacheEnabled = false := by rw [hcfg]; simpa using hc
    have hik : internalKey s1.config key = internalKey s.config key := by
      rw [hcfg]
    simp only [getOp, hc1, Bool.false_eq_true, if_false]
    rw [hik, hlook]
    simp only [bvTruthy, Bool.not_true, Bool.false_eq_true, if_false,
      isStorageItemB, if_true]
    exact envelopeGet_decodes s.config now now key value opts optCurr s1 hcfg

/-- C1 witness: a concrete run with compression and encryption both on and
    the cache off, so the decode path itself is exercised. -/
def stC1 : AdvState :=
  { stFix with
      config :=
        { cfgFix with
            encryptionEnabled := true, compressionEnabled := true,
            compressionThreshold := 1, cacheEnabled := false } }

theorem claimC1_witness :
    validationFails stC1 "k" (.num 42) = false ∧
    (stC1.config.quotaEnforce &&
      decide (backendSize stC1.backend + jsonSize (.num 42) >
        stC1.config.quotaMaxMB * 1048576)) = false ∧
    lookupProp stC1.backend (internalKey stC1.config "k") =
      (none : Option StorageItem).map BackendValue.item ∧
    startsWithStr (internalKey stC1.config "k")
      ("__version:" ++ "k" ++ ":") = false ∧
    ((setOp 100 "k" (.num 42) {} stC1).1 = .ok () ∧
      (getOp 100 "k" (setOp 100 "k" (.num 42) {} stC1).2).1 =
        .ok (some (.plain (.num 42)))) :=
  ⟨rfl, rfl, rfl, rfl,
    claimC1_get_after_set_roundtrip 100 "k" (.num 42) {} stC1 none
      rfl rfl rfl rfl⟩

/-- C2.  Starting from a state with no envelope for `k`, `N` successful
    `set(k, vᵢ)` calls (no other writers) leave a persisted envelope whose
    `metadata.version` is exactly `N`: versions start at 1 and step by 1 per
    write to the same key. -/
theorem claimC2_version_equals_N (now : Nat) (key : String)
    (vals : List JVal) (s : AdvState)
    (hsch : lookupProp s.schemas (schemaKeyOf key) = none)
    (hq : s.config.quotaEnforce = false)
    (hnv : startsWithStr (internalKey s.config key)
      ("__version:" ++ key ++ ":") = false)
    (hcur : lookupProp s.backend (internalKey s.config key) = none)
    (hne : vals ≠ []) :
    ∃ it : StorageItem,
      lookupProp (setMany now key vals s).backend
        (internalKey s.config key) = some (.item it) ∧
      it.metadata.version = vals.length := by
  have h := setMany_version_aux now key vals s 0 hsch hq hnv
    (Or.inl ⟨rfl, hcur⟩)
  rcases h.2 with ⟨hlen, _⟩ | ⟨it, hlook, hver⟩
  · have hlen0 : vals.length = 0 := by omega
    exact absurd (List.length_eq_zero.mp hlen0) hne
  · exact ⟨it, hlook, by simpa using hver⟩

def valsC2 : List JVal := [.num 1, .num 2, .num 3]

theorem claimC2_witness :
    lookupProp stFix.schemas (schemaKeyOf "k") = none ∧
    stFix.config.quotaEnforce = false ∧
    startsWithStr (internalKey stFix.config "k")
      ("__version:" ++ "k" ++ ":") = false ∧
    lookupProp stFix.backend (internalKey stFix.config "k") = none ∧
    valsC2 ≠ [] ∧
    (∃ it : StorageItem,
      lookupProp (setMany 100 "k" valsC2 stFix).backend
        (internalKey stFix.config "k") = some (.item it) ∧
      it.metadata.version = valsC2.length) :=
  ⟨rfl, rfl, rfl, rfl, by simp [valsC2],
    claimC2_version_equals_N 100 "k" valsC2 stFix rfl rfl rfl rfl
      (by simp [valsC2])⟩

/-- C3.  When quota enforcement is on and the current backend usage plus the
    estimated size of the new item exceeds the byte quota, `set` rejects with
    `QuotaExceededError (attemptedUsage, quota)` before any mutation: the
    backend, cache, version store and pending-sync map are exactly the state
    before the call (only the error event is emitted).  Schema validation
    runs first, so the hypothesis that it passes is needed for the quota
    error (not some other error) to surface. -/
theorem claimC3_quota_exceeded_rejects (now : Nat) (key : String)
    (value : JVal) (opts : SetOpts) (s : AdvState)
    (hval : validationFails s key value = false)
    (hq : s.config.quotaEnforce = true)
    (hover : backendSize s.backend + jsonSize value >
      s.config.quotaMaxMB * 1048576) :
    setOp now key value opts s =
      (.error (.quotaExceeded (backendSize s.backend + jsonSize value)
        (s.config.quotaMaxMB * 1048576)),
       pushEvent (.errorEv "SET_ERROR") s) ∧
    (setOp now key value opts s).2.backend = s.backend ∧
    (setOp now key value opts s).2.cache = s.cache ∧
    (setOp now key value opts s).2.versionCounter = s.versionCounter ∧
    (setOp now key value opts s).2.pendingSync = s.pendingSync := by
  have hcond : (s.config.quotaEnforce &&
      decide (backendSize s.backend + jsonSize value >
        s.config.quotaMaxMB * 1048576)) = true := by
    rw [hq]
    simpa using hover
  have hmain : setOp now key value opts s =
      (.error (.quotaExceeded (backendSize s.backend + jsonSize value)
        (s.config.quotaMaxMB * 1048576)),
       pushEvent (.errorEv "SET_ERROR") s) := by
    simp only [setOp, hval, Bool.false_eq_true, if_false, hcond, if_true]
  exact ⟨hmain, by rw [hmain]; rfl, by rw [hmain]; rfl, by rw [hmain]; rfl,
    by rw [hmain]; rfl⟩

def stC3 : AdvState :=
  { stFix with
      config := { cfgFix with quotaEnforce := true, quotaMaxMB := 0 } }

theorem claimC3_witness :
    validationFails stC3 "k" (.num 42) = false ∧
    stC3.config.quotaEnforce = true ∧
    backendSize stC3.backend + jsonSize (.num 42) >
      stC3.config.quotaMaxMB * 1048576 ∧
    (setOp 100 "k" (.num 42) {} stC3 =
      (.error (.quotaExceeded (backendSize stC3.backend + jsonSize (.num 42))
        (stC3.config.quotaMaxMB * 1048576)),
       pushEvent (.errorEv "SET_ERROR") stC3) ∧
     (setOp 100 "k" (.num 42) {} stC3).2.backend = stC3.backend ∧
     (setOp 100 "k" (.num 42) {} stC3).2.cache = stC3.cache ∧
     (setOp 100 "k" (.num 42) {} stC3).2.versionCounter =
       stC3.versionCounter ∧
     (setOp 100 "k" (.num 42) {} stC3).2.pendingSync = stC3.pendingSync) :=
  ⟨rfl, rfl, by decide,
    claimC3_quota_exceeded_rejects 100 "k" (.num 42) {} stC3 rfl rfl
      (by decide)⟩

/-- C8.  When a schema is registered for the key's namespace prefix and the
    value does not satisfy it, `set` rejects with `ValidationError` before
    any side effect: backend, cache, version store and sync queue are
    untouched, and the only event appended is the wrapped error event — in
    particular no change event is emitted. -/
theorem claimC8_validation_aborts (now : Nat) (key : String) (value : JVal)
    (opts : SetOpts) (s : AdvState) (sch : JVal → Bool)
    (hsch : lookupProp s.schemas (schemaKeyOf key) = some sch)
    (hbad : sch value = false) :
    setOp now key value opts s =
      (.error .validationError, pushEvent (.errorEv "SET_ERROR") s) ∧
    (setOp now key value opts s).2.backend = s.backend ∧
    (setOp now key value opts s).2.cache = s.cache ∧
    (setOp now key value opts s).2.versionCounter = s.versionCounter ∧
    (setOp now key value opts s).2.pendingSync = s.pendingSync ∧
    (setOp now key value opts s).2.events =
      .errorEv "SET_ERROR" :: s.events := by
  have hv : validationFails s key value = true := by
    simp [validationFails, hsch, hbad]
  have hmain : setOp now key value opts s =
      (.error .validationError, pushEvent (.errorEv "SET_ERROR") s) := by
    simp only [setOp, hv, if_true]
  exact ⟨hmain, by rw [hmain]; rfl, by rw [hmain]; rfl, by rw [hmain]; rfl,
    by rw [hmain]; rfl, by rw [hmain]; rfl⟩

/-- A concrete registered schema: the namespace prefix `users` only accepts
    string values. -/
def stringSchema : JVal → Bool
  | .str _ => true
  | _ => false

def stC8 : AdvState := { stFix with schemas := [("users", stringSchema)] }

theorem claimC8_witness :
    lookupProp stC8.schemas (schemaKeyOf "users:1") = some stringSchema ∧
    stringSchema (.num 3) = false ∧
    (setOp 7 "users:1" (.num 3) {} stC8 =
      (.error .validationError, pushEvent (.errorEv "SET_ERROR") stC8) ∧
     (setOp 7 "users:1" (.num 3) {} stC8).2.backend = stC8.backend ∧
     (setOp 7 "users:1" (.num 3) {} stC8).2.cache = stC8.cache ∧
     (setOp 7 "users:1" (.num 3) {} stC8).2.versionCounter =
       stC8.versionCounter ∧
     (setOp 7 "users:1" (.num 3) {} stC8).2.pendingSync = stC8.pendingSync ∧
     (setOp 7 "users:1" (.num 3) {} stC8).2.events =
       .errorEv "SET_ERROR" :: stC8.events) :=
  ⟨rfl, rfl,
    claimC8_validation_aborts 7 "users:1" (.num 3) {} stC8 stringSchema
      rfl rfl⟩

/-- C9.  After `delete(k)`: the current envelope is gone from the backend,
    no backend key carries `k`'s version tag any more, `k`'s cache entry is
    gone, and a subsequent `get(k)` (at any later instant) returns absent
    (`null`), not an error. -/
theorem claimC9_delete_removes_everything (now now2 : Nat) (key : String)
    (s : AdvState)
    (hver : s.config.versioningEnabled = true)
    (hc : s.config.cacheEnabled = true) :
    (deleteOp now key s).1 = .ok () ∧
    lookupProp (deleteOp now key s).2.backend (internalKey s.config key) =
      none ∧
    (∀ k' ∈ keysOf (deleteOp now key s).2.backend,
      startsWithStr k' ("__version:" ++ key ++ ":") = false) ∧
    lookupProp (deleteOp now key s).2.cache.entries key = none ∧
    (getOp now2 key (deleteOp now key s).2).1 = .ok none := by
  have hback : (deleteOp now key s).2.backend =
      (eraseProp s.backend (internalKey s.config key)).filter
        (fun p => !startsWithStr p.1 ("__version:" ++ key ++ ":")) := by
    simp only [deleteOp, deleteVersions, hc, hver, if_true, pushEvent]
    split <;> rfl
  have hcache : (deleteOp now key s).2.cache = cacheDelete key s.cache := by
    simp only [deleteOp, deleteVersions, hc, hver, if_true, pushEvent]
    split <;> rfl
  have hcfg : (deleteOp now key s).2.config = s.config := by
    simp only [deleteOp, deleteVersions, hc, hver, if_true, pushEvent]
    split <;> rfl
  have h2 : lookupProp (deleteOp now key s).2.backend
      (internalKey s.config key) = none := by
    rw [hback]
    exact lookupProp_filter_none _ _ _ (lookupProp_eraseProp_self _ _)
  have h4 : lookupProp (deleteOp now key s).2.cache.entries key = none := by
    rw [hcache]
    unfold cacheDelete
    split
    · exact lookupProp_eraseProp_self _ _
    · rename_i hnone
      exact hnone
  refine ⟨rfl, h2, ?_, h4, ?_⟩
  · intro k' hk'
    rw [hback] at hk'
    obtain ⟨p, hp, hfst⟩ := List.mem_map.mp hk'
    have := (List.mem_filter.mp hp).2
    rw [hfst] at this
    simpa using this
  · -- the subsequent get: cache miss, backend miss, `null`
    have hc2 : (deleteOp now key s).2.config.cacheEnabled = true := by
      rw [hcfg]; exact hc
    have hmiss : (cacheGet now2 key (deleteOp now key s).2.cache).1 = none := by
      unfold cacheGet
      dsimp only
      rw [h4]
    have hik : internalKey (deleteOp now key s).2.config key =
        internalKey s.config key := by rw [hcfg]
    simp only [getOp, hc2, if_true]
    rw [hmiss, hik, h2]

theorem claimC9_witness :
    stFix.config.versioningEnabled = true ∧
    stFix.config.cacheEnabled = true ∧
    ((deleteOp 200 "k" stFix).1 = .ok () ∧
     lookupProp (deleteOp 200 "k" stFix).2.backend
       (internalKey stFix.config "k") = none ∧
     (∀ k' ∈ keysOf (deleteOp 200 "k" stFix).2.backend,
       startsWithStr k' ("__version:" ++ "k" ++ ":") = false) ∧
     lookupProp (deleteOp 200 "k" stFix).2.cache.entries "k" = none ∧
     (getOp 201 "k" (deleteOp 200 "k" stFix).2).1 = .ok none) :=
  ⟨rfl, rfl, claimC9_delete_removes_everything 200 201 "k" stFix rfl rfl⟩

/-- A falsy legacy value stored directly at the key: `0` has no envelope
    shape, yet `get` does not pass it through. -/
def stC10z : AdvState :=
  { stFix with backend := [("default:z", .legacy (.num 0))] }

/-- C10 counterexample.  `get` starts with the JS truthiness test
    `if (!item) { return null }` before the envelope-shape check, so a
    legacy directly-stored falsy value — here `0` — comes back as `null`
    (absent), not as the stored value: the unconditional passthrough claim
    fails. -/
theorem claimC10_counterexample :
    envelopeShaped (.num 0) = false ∧
    lookupProp stC10z.backend (internalKey stC10z.config "z") =
      some (.legacy (.num 0)) ∧
    (getOp 5 "z" stC10z).1 = .ok none :=
  ⟨rfl, rfl, rfl⟩

/-- C10 (amended).  A stored TRUTHY value without the envelope shape (an
    object carrying `id`, `key`, `value` and `metadata`) is returned by
    `get` unchanged — no decode step, no cache population (the cache entries
    are exactly those before the call), no backend mutation — rather than
    failing.  Falsy legacy values (`0`, `""`, `false`, `null`) are instead
    swallowed by the `if (!item) return null` guard that runs before the
    envelope-shape check (see the counterexample). -/
theorem claimC10_amended_passthrough (now : Nat) (key : String) (j : JVal)
    (s : AdvState)
    (hbv : lookupProp s.backend (internalKey s.config key) =
      some (.legacy j))
    (htr : truthy (some j) = true)
    (hshape : envelopeShaped j = false)
    (hmiss : lookupProp s.cache.entries key = none) :
    (getOp now key s).1 = .ok (some (.plain j)) ∧
    (getOp now key s).2.backend = s.backend ∧
    (getOp now key s).2.cache.entries = s.cache.entries := by
  by_cases hc : s.config.cacheEnabled
  · have hmiss2 : (cacheGet now key s.cache).1 = none := by
      unfold cacheGet
      dsimp only
      rw [hmiss]
    have hent : (cacheGet now key s.cache).2.entries = s.cache.entries := by
      unfold cacheGet
      dsimp only
      rw [hmiss]
    have hshape2 : isStorageItemB (.legacy j) = false := hshape
    simp only [getOp, hc, if_true]
    rw [hmiss2, hbv]
    dsimp only
    simp only [bvTruthy, htr, Bool.not_true, Bool.false_eq_true, if_false]
    rw [hshape2]
    simp [rawAsProc, hent]
  · have hshape2 : isStorageItemB (.legacy j) = false := hshape
    simp only [getOp, hc, Bool.false_eq_true, if_false]
    rw [hbv]
    dsimp only
    simp only [bvTruthy, htr, Bool.not_true, Bool.false_eq_true, if_false]
    rw [hshape2]
    simp [rawAsProc]

def legacyVal : JVal := .obj [("x", .num 1)]

def stC10 : AdvState :=
  { stFix with backend := [("default:leg", .legacy legacyVal)] }

theorem claimC10_witness :
    lookupProp stC10.backend (internalKey stC10.config "leg") =
      some (.legacy legacyVal) ∧
    truthy (some legacyVal) = true ∧
    envelopeShaped legacyVal = false ∧
    lookupProp stC10.cache.entries "leg" = none ∧
    ((getOp 5 "leg" stC10).1 = .ok (some (.plain legacyVal)) ∧
     (getOp 5 "leg" stC10).2.backend = stC10.backend ∧
     (getOp 5 "leg" stC10).2.cache.entries = stC10.cache.entries) :=
  ⟨rfl, rfl, rfl, rfl,
    claimC10_amended_passthrough 5 "leg" legacyVal stC10 rfl rfl rfl rfl⟩

/-- C6.  `sync()` called while a cycle is in flight observes
    `syncing = true` and returns immediately: the state (storage, events,
    pending changes, the manager itself) is exactly unchanged and no
    per-provider push/pull results are even collected (`none`). -/
theorem claimC6_sync_reentrancy_noop (now : Nat)
    (providers : List ProviderM) (sm : SyncMState) (st : AdvState)
    (hsyncing : sm.syncing = true) :
    syncOp now providers sm st = (sm, st, none) := by
  simp [syncOp, hsyncing]

def smBusy : SyncMState :=
  { enabled := true, conflictResolution := .localP, syncing := true,
    lastSyncTime := none }

/-- A provider that would succeed if contacted. -/
def provLive : ProviderM :=
  { pushFn := fun cs =>
      .ok
        { success := true, synced := cs.length, conflicts := [],
          errors := 0 },
    pullFn := .ok [] }

theorem claimC6_witness :
    smBusy.syncing = true ∧
    syncOp 10 [provLive] smBusy stFix = (smBusy, stFix, none) :=
  ⟨rfl, claimC6_sync_reentrancy_noop 10 [provLive] smBusy stFix rfl⟩

theorem storeVersion_pending (s : AdvState) (key : String)
    (prev : StorageItem) :
    (storeVersion s key prev).pendingSync = s.pendingSync := by
  unfold storeVersion storeVersionWrite cleanupVersions
  dsimp only
  repeat' split
  all_goals rfl

theorem getOp_pending (now : Nat) (key : String) (s : AdvState) :
    (getOp now key s).2.pendingSync = s.pendingSync := by
  unfold getOp envelopeGet legacyEnvelopeGet pushEvent
  dsimp only
  repeat' split
  all_goals rfl

theorem setOpWrite_pending_mono (now : Nat) (key : String) (value : JVal)
    (opts : SetOpts) (s : AdvState) (k0 : String)
    (hk0 : k0 ∈ keysOf s.pendingSync) :
    k0 ∈ keysOf (setOpWrite now key value opts s).2.pendingSync := by
  unfold setOpWrite queueChange
  rcases hcur : lookupProp s.backend (internalKey s.config key) with _ | bv
  case none =>
    simp only [hcur]
    dsimp only [pushEvent]
    repeat' split
    all_goals try rw [storeVersion_pending]
    all_goals try dsimp only
    all_goals first
      | exact hk0
      | exact mem_keysOf_setProp _ _ _ _ hk0
  case some =>
    cases bv with
    | legacy j =>
      simp only [hcur]
      exact hk0
    | item it =>
      simp only [hcur]
      dsimp only [pushEvent]
      repeat' split
      all_goals try rw [storeVersion_pending]
      all_goals try dsimp only
      all_goals first
        | exact hk0
        | exact mem_keysOf_setProp _ _ _ _ hk0

theorem setOp_pending_mono (now : Nat) (key : String) (value : JVal)
    (opts : SetOpts) (s : AdvState) (k0 : String)
    (hk0 : k0 ∈ keysOf s.pendingSync) :
    k0 ∈ keysOf (setOp now key value opts s).2.pendingSync := by
  unfold setOp
  dsimp only
  repeat' split
  all_goals first
    | exact hk0
    | exact setOpWrite_pending_mono _ _ _ _ _ _ hk0

theorem deleteOp_pending_mono (now : Nat) (key : String) (s : AdvState)
    (k0 : String) (hk0 : k0 ∈ keysOf s.pendingSync) :
    k0 ∈ keysOf (deleteOp now key s).2.pendingSync := by
  unfold deleteOp queueChange deleteVersions
  dsimp only [pushEvent]
  repeat' split
  all_goals try dsimp only
  all_goals first
    | exact hk0
    | exact mem_keysOf_setProp _ _ _ _ hk0

theorem clearOp_pending_mono (now : Nat) (s : AdvState) (k0 : String)
    (hk0 : k0 ∈ keysOf s.pendingSync) :
    k0 ∈ keysOf (clearOp now s).2.pendingSync := by
  unfold clearOp queueChange
  dsimp only [pushEvent]
  repeat' split
  all_goals try dsimp only
  all_goals first
    | exact hk0
    | exact mem_keysOf_setProp _ _ _ _ hk0

theorem applyOneRemote_pending_mono (now : Nat) (change : SyncChange)
    (st : AdvState) (k0 : String) (hk0 : k0 ∈ keysOf st.pendingSync) :
    k0 ∈ keysOf (applyOneRemote now change st).2.pendingSync := by
  unfold applyOneRemote
  rcases hg : getOp now change.key st with ⟨res, st1⟩
  have hst1 : st1.pendingSync = st.pendingSync := by
    have := getOp_pending now change.key st
    rw [hg] at this
    exact this
  have hk1 : k0 ∈ keysOf st1.pendingSync := by rw [hst1]; exact hk0
  cases res with
  | error e => exact hk1
  | ok localValue =>
    rcases localValue with _ | lv <;> rcases hty : change.type
    case none.set =>
      dsimp only
      exact setOp_pending_mono _ _ _ _ _ _ hk1
    case none.del =>
      dsimp only
      exact deleteOp_pending_mono _ _ _ _ hk1
    case none.clear =>
      dsimp only
      exact clearOp_pending_mono _ _ _ hk1
    case some.set => exact hk1
    case some.del =>
      dsimp only
      exact deleteOp_pending_mono _ _ _ _ hk1
    case some.clear =>
      dsimp only
      exact clearOp_pending_mono _ _ _ hk1

theorem applyRemoteChanges_pending_mono (now : Nat) :
    ∀ (changes : List SyncChange) (st : AdvState)
      (conflicts0 : List SyncConflictM) (k0 : String),
      k0 ∈ keysOf st.pendingSync →
      k0 ∈ keysOf
        (changes.foldl
          (fun acc c =>
            let r := applyOneRemote now c acc.2
            (acc.1 ++ r.1.toList, r.2))
          (conflicts0, st)).2.pendingSync := by
  intro changes
  induction changes with
  | nil => intro st conflicts0 k0 hk0; exact hk0
  | cons c rest ih =>
    intro st conflicts0 k0 hk0
    exact ih _ _ _ (applyOneRemote_pending_mono now c st k0 hk0)

/-- C7 (amended).  In `syncWithProvider`, if the push and the pull both
    complete, the pending map is cleared exactly when the push reported
    success; on a reported failure every previously pending key is still
    pending afterwards (its entry possibly overwritten by the re-enqueue
    that applying a pulled remote change performs).  If the push or the
    pull throws, the call aborts with no state produced — the caller keeps
    the old state, pending map untouched. -/
theorem claimC7_amended_pending_clear (now : Nat) (p : ProviderM)
    (st : AdvState) (r : SyncResultM) (st' : AdvState)
    (h : syncWithProvider now p st = .ok (r, st')) :
    (r.success = true → st'.pendingSync = []) ∧
    (r.success = false →
      ∀ k0 ∈ keysOf st.pendingSync, k0 ∈ keysOf st'.pendingSync) := by
  unfold syncWithProvider at h
  dsimp only at h
  rcases hp : p.pushFn (st.pendingSync.map Prod.snd) with _ | pr
  · rw [hp] at h; exact absurd h (by simp)
  · rw [hp] at h
    rcases hpl : p.pullFn with _ | rc
    · rw [hpl] at h; exact absurd h (by simp)
    · rw [hpl] at h
      dsimp only at h
      injection h with h1
      injection h1 with hr hst
      constructor
      · intro hsucc
        rw [← hst]
        rw [← hr] at hsucc
        dsimp at hsucc
        simp [hsucc]
      · intro hfail k0 hk0
        rw [← hst]
        rw [← hr] at hfail
        dsimp at hfail
        simp only [hfail, Bool.false_eq_true, if_false]
        exact applyRemoteChanges_pending_mono now rc st [] k0 hk0

/-- The pending change used in the C7 scenario. -/
def chC7 : SyncChange :=
  { key := "k", type := .set, value := some (.num 1), timestamp := 0,
    source := "s" }

def stC7 : AdvState := { stFix with pendingSync := [("k", chC7)] }

def smIdle : SyncMState :=
  { enabled := true, conflictResolution := .localP, syncing := false,
    lastSyncTime := none }

/-- A provider whose push reports success but whose pull throws. -/
def provPullThrows : ProviderM :=
  { pushFn := fun cs =>
      .ok
        { success := true, synced := cs.length, conflicts := [],
          errors := 0 },
    pullFn := .error () }

/-- C7 counterexample: the claim says the pending map is cleared **iff** the
    provider's push reported success.  Here the push reports success
    (`success = true` on one pending change), but the subsequent pull
    throws, `syncWithProvider` aborts before `pendingChanges.clear()`, and
    the pending map survives the cycle untouched — success reported, yet
    not cleared. -/
theorem claimC7_counterexample :
    provPullThrows.pushFn (stC7.pendingSync.map Prod.snd) =
      .ok { success := true, synced := 1, conflicts := [], errors := 0 } ∧
    syncWithProvider 10 provPullThrows stC7 = .error () ∧
    (syncOp 10 [provPullThrows] smIdle stC7).2.1.pendingSync =
      [("k", chC7)] ∧
    stC7.pendingSync = [("k", chC7)] :=
  ⟨rfl, rfl, rfl, rfl⟩

/-- A provider that pushes successfully and pulls nothing. -/
def provPushOk : ProviderM :=
  { pushFn := fun cs =>
      .ok
        { success := true, synced := cs.length, conflicts := [],
          errors := 0 },
    pullFn := .ok [] }

theorem claimC7_amended_witness :
    syncWithProvider 10 provPushOk stC7 =
      .ok ({ success := true, synced := 1, conflicts := [], errors := 0 },
        { stC7 with pendingSync := [] }) ∧
    (({ success := true, synced := 1, conflicts := [],
        errors := 0 } : SyncResultM).success = true →
      ({ stC7 with pendingSync := [] } : AdvState).pendingSync = []) ∧
    (({ success := true, synced := 1, conflicts := [],
        errors := 0 } : SyncResultM).success = false →
      ∀ k0 ∈ keysOf stC7.pendingSync,
        k0 ∈ keysOf ({ stC7 with pendingSync := [] } : AdvState).pendingSync) :=
  ⟨rfl,
    (claimC7_amended_pending_clear 10 provPushOk stC7 _ _ rfl).1,
    (claimC7_amended_pending_clear 10 provPushOk stC7 _ _ rfl).2⟩

theorem lookupProp_eq_of_mem_nodup {α : Type} (l : List (String × α))
    (k : String) (e : α) (hmem : (k, e) ∈ l)
    (hnd : (keysOf l).Nodup) : lookupProp l k = some e := by
  induction l with
  | nil => simp at hmem
  | cons hd tl ih =>
    obtain ⟨k0, v0⟩ := hd
    simp only [keysOf, List.map_cons, List.nodup_cons] at hnd
    rcases List.mem_cons.mp hmem with heq | htl
    · obtain ⟨hk, hv⟩ := Prod.mk.injEq .. ▸ heq
      injection heq with hk hv
      subst hk
      subst hv
      simp [lookupProp]
    · have hk0 : k0 ≠ k := by
        intro he
        subst he
        exact hnd.1 (List.mem_map_of_mem Prod.fst htl)
      simp only [lookupProp, if_neg hk0]
      exact ih htl hnd.2

/-- The fold of `evictLFU` returns (the key of) an entry holding the
    minimum frequency; ties resolve to the earliest entry. -/
theorem lfuVictim_fold_aux :
    ∀ (l seen : List (String × CacheEntry)) (k0 : String) (f0 : Nat),
      (∃ e0 : CacheEntry, (k0, e0) ∈ seen ∧ e0.frequency = f0) →
      (∀ p ∈ seen, f0 ≤ p.2.frequency) →
      ∃ (k1 : String) (f1 : Nat) (e1 : CacheEntry),
        l.foldl
          (fun acc p =>
            match acc with
            | none => some (p.1, p.2.frequency)
            | some (k0, f0) =>
              if p.2.frequency < f0 then some (p.1, p.2.frequency)
              else some (k0, f0))
          (some (k0, f0)) = some (k1, f1) ∧
        (k1, e1) ∈ seen ++ l ∧ e1.frequency = f1 ∧
        ∀ p ∈ seen ++ l, f1 ≤ p.2.frequency := by
  intro l
  induction l with
  | nil =>
    intro seen k0 f0 ⟨e0, he0, hf0⟩ hmin
    exact ⟨k0, f0, e0, rfl, by simpa using he0, hf0, by simpa using hmin⟩
  | cons p rest ih =>
    intro seen k0 f0 ⟨e0, he0, hf0⟩ hmin
    by_cases hlt : p.2.frequency < f0
    · have hnext := ih (seen ++ [p]) p.1 p.2.frequency
        ⟨p.2, by simp, rfl⟩
        (by
          intro q hq
          rcases List.mem_append.mp hq with hs | hp
          · exact le_trans (le_of_lt hlt) (hmin q hs)
          · simp at hp
            subst hp
            exact le_refl _)
      obtain ⟨k1, f1, e1, heq, hmemb, hfreq, hminall⟩ := hnext
      refine ⟨k1, f1, e1, ?_, ?_, hfreq, ?_⟩
      · simpa [List.foldl_cons, hlt] using heq
      · simpa [List.append_assoc] using hmemb
      · intro q hq
        exact hminall q (by simpa [List.append_assoc] using hq)
    · have hnext := ih (seen ++ [p]) k0 f0
        ⟨e0, by simp [he0], hf0⟩
        (by
          intro q hq
          rcases List.mem_append.mp hq with hs | hp
          · exact hmin q hs
          · simp at hp
            subst hp
            omega)
      obtain ⟨k1, f1, e1, heq, hmemb, hfreq, hminall⟩ := hnext
      refine ⟨k1, f1, e1, ?_, ?_, hfreq, ?_⟩
      · simpa [List.foldl_cons, hlt] using heq
      · simpa [List.append_assoc] using hmemb
      · intro q hq
        exact hminall q (by simpa [List.append_assoc] using hq)

theorem lfuVictim_spec (l : List (String × CacheEntry)) (hne : l ≠ []) :
    ∃ (ek : String) (ee : CacheEntry),
      lfuVictim l = some ek ∧ (ek, ee) ∈ l ∧
      ∀ p ∈ l, ee.frequency ≤ p.2.frequency := by
  cases l with
  | nil => exact absurd rfl hne
  | cons p rest =>
    have haux := lfuVictim_fold_aux rest [p] p.1 p.2.frequency
      ⟨p.2, by simp, rfl⟩ (by intro q hq; simp at hq; subst hq; exact le_refl _)
    obtain ⟨k1, f1, e1, heq, hmemb, hfreq, hminall⟩ := haux
    refine ⟨k1, e1, ?_, by simpa using hmemb, ?_⟩
    · unfold lfuVictim
      rw [List.foldl_cons]
      dsimp only
      rw [heq]
      rfl
    · intro q hq
      rw [hfreq]
      exact hminall q (by simpa using hq)

/-- C5 (amended).  Inserting a fresh key into a frequency-strategy cache
    holding exactly its entry-count capacity evicts exactly one resident
    entry — one holding the **minimum frequency** (`evictLFU`), not the
    minimum frequency-per-byte score; the frequency-per-byte score drives
    only the memory-budget eviction (`evictByMemory`), which does not run
    while the memory budget accommodates the new entry. -/
theorem claimC5_amended_lfu_evicts_min_frequency (now : Nat) (k : String)
    (v : ProcValue) (ttl : Option Nat) (c : CacheState)
    (hfull : c.entries.length = c.maxSize)
    (hpos : 0 < c.maxSize)
    (hnd : (keysOf c.entries).Nodup)
    (hfresh : lookupProp c.entries k = none)
    (hmem : c.memoryUsage + procSize v ≤ c.maxMemory) :
    ∃ (ek : String) (ee : CacheEntry),
      (ek, ee) ∈ c.entries ∧
      (∀ p ∈ c.entries, ee.frequency ≤ p.2.frequency) ∧
      (cacheSet now k v ttl c).entries =
        eraseProp c.entries ek ++
          [(k, { key := k, value := v, size := procSize v, frequency := 1,
                 createdAt := now, accessedAt := now,
                 expiresAt := cacheExpiry now ttl c.ttlDefault })] ∧
      (cacheSet now k v ttl c).entries.length = c.maxSize := by
  have hne : c.entries ≠ [] := by
    intro h
    rw [h] at hfull
    simp at hfull
    omega
  obtain ⟨ek, ee, hvic, hmemb, hmin⟩ := lfuVictim_spec c.entries hne
  have hlook : lookupProp c.entries ek = some ee :=
    lookupProp_eq_of_mem_nodup _ _ _ hmemb hnd
  refine ⟨ek, ee, hmemb, hmin, ?_, ?_⟩
  · -- the entries after the insertion
    unfold cacheSet enforceLimit evictLFU
    dsimp only
    rw [if_pos (le_of_eq hfull.symm), hvic]
    unfold cacheDelete
    dsimp only
    rw [hlook]
    dsimp only
    rw [if_neg (by
      simp only [not_lt]
      omega)]
    dsimp only
    exact setProp_of_lookup_none _ _ _
      (lookupProp_filter_none _ _ _ hfresh)
  · -- exactly one entry was evicted: the count is back at capacity
    unfold cacheSet enforceLimit evictLFU
    dsimp only
    rw [if_pos (le_of_eq hfull.symm), hvic]
    unfold cacheDelete
    dsimp only
    rw [hlook]
    dsimp only
    rw [if_neg (by
      simp only [not_lt]
      omega)]
    dsimp only
    have hfr : lookupProp (eraseProp c.entries ek) k = none := by
      unfold eraseProp
      exact lookupProp_filter_none _ _ _ hfresh
    rw [setProp_of_lookup_none _ _ _ hfr]
    rw [List.length_append]
    have := length_eraseProp_of_mem c.entries ek ee hmemb hnd
    simp only [List.length_cons, List.length_nil]
    omega

/-- A 100-character payload making entry `"b"` much larger than `"a"`. -/
def bigStrC5 : String := String.mk (List.replicate 100 'x')

def cacheC5 : CacheState := { cacheFix with maxSize := 2 }

/-- The cache state at capacity: `"a"` (frequency 1, size 1) and `"b"`
    (frequency 2 after one read, size 102). -/
def c5Run : CacheState :=
  (cacheGet 1 "b"
    (cacheSet 0 "b" (.plain (.str bigStrC5)) none
      (cacheSet 0 "a" (.plain (.num 5)) none cacheC5))).2

def c5After : CacheState := cacheSet 2 "c" (.plain (.num 7)) none c5Run

/-- C5 counterexample: in a frequency-strategy cache at entry-count
    capacity (2 entries), entry `"b"` has strictly the **lowest
    frequency-per-byte score** (2/102 < 1/1, i.e. 2·1 < 1·102 by
    cross-multiplication), yet inserting the fresh key `"c"` evicts `"a"` —
    the entry with the lowest raw frequency — so the evicted entry is not
    the one with the lowest frequency-per-byte score. -/
theorem claimC5_counterexample :
    c5Run.entries.length = c5Run.maxSize ∧
    (lookupProp c5Run.entries "a").map CacheEntry.frequency = some 1 ∧
    (lookupProp c5Run.entries "b").map CacheEntry.frequency = some 2 ∧
    (lookupProp c5Run.entries "a").map CacheEntry.size = some 1 ∧
    (lookupProp c5Run.entries "b").map CacheEntry.size = some 102 ∧
    2 * 1 < 1 * 102 ∧
    keysOf c5After.entries = ["b", "c"] :=
  ⟨rfl, rfl, rfl, rfl, rfl, by norm_num, rfl⟩

theorem claimC5_witness :
    c5Run.entries.length = c5Run.maxSize ∧
    0 < c5Run.maxSize ∧
    (keysOf c5Run.entries).Nodup ∧
    lookupProp c5Run.entries "c" = none ∧
    c5Run.memoryUsage + procSize (.plain (.num 7)) ≤ c5Run.maxMemory ∧
    (∃ (ek : String) (ee : CacheEntry),
      (ek, ee) ∈ c5Run.entries ∧
      (∀ p ∈ c5Run.entries, ee.frequency ≤ p.2.frequency) ∧
      (cacheSet 2 "c" (.plain (.num 7)) none c5Run).entries =
        eraseProp c5Run.entries ek ++
          [("c", { key := "c", value := .plain (.num 7),
                   size := procSize (ProcValue.plain (.num 7)), frequency := 1,
                   createdAt := 2, accessedAt := 2,
                   expiresAt := cacheExpiry 2 none c5Run.ttlDefault })] ∧
      (cacheSet 2 "c" (.plain (.num 7)) none c5Run).entries.length =
        c5Run.maxSize) :=
  ⟨rfl, by decide, by decide, rfl, by decide,
    claimC5_amended_lfu_evicts_min_frequency 2 "c" (.plain (.num 7)) none
      c5Run rfl (by decide) (by decide) rfl (by decide)⟩

/-- C4 evaluation.  `mergeValues` on the two objects `{a:1}` / `{b:2}` does
    produce their shallow merge with local precedence (field order aside) —
    but on the two arrays `[1,2]` / `[2,3]` it produces the index-keyed
    **object** `{"0":1,"1":2}`: `typeof` of a JS array is `'object'`, so two
    arrays enter the object-spread branch and the `Array.isArray` branch
    (whose own comment says 'Combine arrays and remove duplicates') is
    unreachable.  The spec's promised `[1,2,3]` is never produced. -/
theorem claimC4_merge_evaluation :
    mergeValues (.obj [("a", .num 1)]) (.obj [("b", .num 2)]) =
      .obj [("b", .num 2), ("a", .num 1)] ∧
    mergeValues (.arr [.num 1, .num 2]) (.arr [.num 2, .num 3]) =
      .obj [("0", .num 1), ("1", .num 2)] :=
  ⟨rfl, rfl⟩

end ChromeStorage
